import Mathlib

/-!
# Verification of the rollexpr expression engine

Shallow embedding of the dice-expression engine (lexer, parser, evaluator,
simplifier, printer) from `src/unnamed/part_002`, together with proofs of the
claims about it.

Modelling conventions:
* JavaScript numbers are modelled as exact rationals (`ℚ`).  Division by zero
  therefore yields `0` (the Lean convention) instead of IEEE `±Infinity`/`NaN`;
  theorems touching division by zero are stated with that caveat in mind.
* Strings are modelled as `List Char`; the source's `Context` object is an
  association list from names to numbers.
* The pseudo-random source (`Math.random`) is modelled as a function
  `Nat → ℚ` giving the stream of draws, together with a cursor that is
  threaded through evaluation; `Roll.calc` consumes `dice` consecutive values.
* `Math.max(...[])` / `Math.min(...[])` on an empty spread yield IEEE
  `-Infinity`/`Infinity`, which `ℚ` cannot represent; the model returns `0`
  for an empty draw list.  All theorems about `h`/`l` rolls assume at least
  one die, where the choice is irrelevant.
-/

/-- Decidable equality for `Except`, used to evaluate concrete parser
results in proofs. -/
instance {ε α : Type} [DecidableEq ε] [DecidableEq α] : DecidableEq (Except ε α) := fun x y =>
  match x, y with
  | .ok a, .ok b =>
      if h : a = b then isTrue (by rw [h])
      else isFalse (by intro hc; cases hc; exact h rfl)
  | .error a, .error b =>
      if h : a = b then isTrue (by rw [h])
      else isFalse (by intro hc; cases hc; exact h rfl)
  | .ok _, .error _ => isFalse (by intro hc; cases hc)
  | .error _, .ok _ => isFalse (by intro hc; cases hc)

namespace RollEx

/-! ## Operators (source: `type Operator`, `precedence`, `doOp`) -/

/-- The four binary operators of the engine. -/
inductive BOp where
  | add
  | sub
  | mul
  | div
deriving DecidableEq

/-- Mapping from operator to precedence (source: `const precedence`). -/
def prec : BOp → Nat
  | .add => 0
  | .sub => 0
  | .mul => 1
  | .div => 1

/-- Perform a binary arithmetic operation (source: `function doOp`).
Division is exact rational division; division by zero yields `0` in this
model (JS would yield `±Infinity`/`NaN`). -/
def doOp : BOp → ℚ → ℚ → ℚ
  | .add, a, b => a + b
  | .sub, a, b => a - b
  | .mul, a, b => a * b
  | .div, a, b => a / b

/-- Dice-roll modifiers (source: `type DiceMod`): keep highest / keep lowest. -/
inductive DiceMod where
  | h
  | l
deriving DecidableEq

/-! ## The AST (source: classes `Literal`, `Reference`, `Roll`, `Operation`) -/

/-- The expression AST: literal numbers, variable references, dice rolls and
binary operations. -/
inductive Exp where
  | lit (val : ℚ)
  | ref (name : List Char)
  | roll (dice : Nat) (sides : Nat) (mod : Option DiceMod)
  | oper (op : BOp) (left : Exp) (right : Exp)
deriving DecidableEq

/-- Evaluation context: mapping from variable names to numeric values
(source: `interface Context`). -/
def Ctx := List (List Char × ℚ)

/-- Look a name up in a context (source: `context[this.ref]`). -/
def ctxFind (c : Ctx) (x : List Char) : Option ℚ :=
  match c with
  | [] => none
  | (y, v) :: rest => if y = x then some v else ctxFind rest x

/-- Details about one resolved dice roll (source: `interface RollResult`). -/
structure RollResult where
  die : Nat
  rolls : List ℤ
  value : ℤ
deriving DecidableEq

/-! ## The evaluator (source: the `calc` methods) -/

/-- A single die draw from a uniform source value `u`:
`1 + Math.floor(u * sides)` (source: `Roll.roll1`). -/
def draw1 (u : ℚ) (sides : Nat) : ℤ :=
  1 + ⌊u * (sides : ℚ)⌋

/-- Maximum of a list of draws (source: `Math.max(...rolls)`); `0` for an
empty list, where JS would give `-Infinity` (see module comment). -/
def listMax : List ℤ → ℤ
  | [] => 0
  | d :: ds => ds.foldl max d

/-- Minimum of a list of draws (source: `Math.min(...rolls)`); `0` for an
empty list, where JS would give `Infinity`. -/
def listMin : List ℤ → ℤ
  | [] => 0
  | d :: ds => ds.foldl min d

/-- Aggregate the individual draws of one roll according to the modifier:
sum with no modifier, maximum with `h`, minimum with `l`
(source: `Roll.calc`). -/
def aggregate : Option DiceMod → List ℤ → ℤ
  | none, ds => ds.foldl (· + ·) 0
  | some .h, ds => listMax ds
  | some .l, ds => listMin ds

/-- The draws made by one `Roll` node: `dice` consecutive values of the
random source starting at cursor position `n` (source: the `for` loop in
`Roll.calc`). -/
def rollDraws (dice sides : Nat) (src : Nat → ℚ) (n : Nat) : List ℤ :=
  (List.range dice).map (fun i => draw1 (src (n + i)) sides)

/-- Full evaluation of an expression (source: the `calc` methods).  Returns
the numeric value, the advanced cursor into the random stream, and the list
of `RollResult` records appended to the caller's sink, in order.  An
`Operation` evaluates its left child before its right child; a `Reference`
absent from the context evaluates to `0`. -/
def calcE : Exp → Ctx → (Nat → ℚ) → Nat → ℚ × Nat × List RollResult
  | .lit v, _, _, n => (v, n, [])
  | .ref x, c, _, n => ((ctxFind c x).getD 0, n, [])
  | .roll dice sides m, _, src, n =>
      let ds := rollDraws dice sides src n
      let v := aggregate m ds
      ((v : ℚ), n + dice, [⟨sides, ds, v⟩])
  | .oper o l r, c, src, n =>
      let lr := calcE l c src n
      let rr := calcE r c src lr.2.1
      (doOp o lr.1 rr.1, rr.2.1, lr.2.2 ++ rr.2.2)

/-! ## The simplifier (source: the `simplify` methods and `Operation.mergeLeft`) -/

/-- Merge `farLeft op1 lit1 op2 lit2` (where `op1`, `op2` share precedence)
into a single operation (source: `Operation.mergeLeft`). -/
def mergeLeft (farLeft : Exp) (leftOp : BOp) (left : ℚ) (rightOp : BOp)
    (right : ℚ) : Exp :=
  if leftOp = rightOp then
    if leftOp = .add ∨ leftOp = .sub then
      .oper leftOp farLeft (.lit (left + right))
    else
      .oper leftOp farLeft (.lit (left * right))
  else if left = right then
    farLeft
  else if right < left then
    if leftOp = .add ∨ leftOp = .sub then
      .oper leftOp farLeft (.lit (left - right))
    else
      .oper leftOp farLeft (.lit (left / right))
  else
    if rightOp = .add ∨ rightOp = .sub then
      .oper rightOp farLeft (.lit (right - left))
    else
      .oper rightOp farLeft (.lit (right / left))

/-- Simplify an expression without rolling dice (source: the `simplify`
methods).  Literals and rolls are unchanged; a reference present in the
context becomes a literal; an operation folds two literal children, merges a
same-precedence literal chain to the left, or rebuilds with the simplified
children. -/
def simplifyE (c : Ctx) : Exp → Exp
  | .lit v => .lit v
  | .roll dice sides m => .roll dice sides m
  | .ref x =>
      match ctxFind c x with
      | some v => .lit v
      | none => .ref x
  | .oper o l r =>
      match simplifyE c l, simplifyE c r with
      | .lit a, .lit b => .lit (doOp o a b)
      | .oper o1 fl (.lit a), .lit b =>
          if prec o1 = prec o then mergeLeft fl o1 a o b
          else .oper o (.oper o1 fl (.lit a)) (.lit b)
      | l', r' => .oper o l' r'

/-! ## Decimal printing (source: `Number.prototype.toString` on literal values)

JS prints numbers in plain decimal notation for the magnitudes relevant here
(it switches to exponential notation only beyond `1e21`/`1e-7`, outside the
scope of the spec, which describes literals as plain decimal).  The model
prints a rational exactly when its denominator divides a power of ten, which
covers every value a binary float can take. -/

/-- The character for a single decimal digit. -/
def dChar (d : Nat) : Char := Char.ofNat (48 + d)

/-- The numeric value of a decimal digit character. -/
def dVal (c : Char) : Nat := c.toNat - 48

/-- Decimal digit characters of a natural number, most significant first
(fuelled helper). -/
def natDigitsF : Nat → Nat → List Char
  | 0, _ => []
  | fuel + 1, n => if n < 10 then [dChar n] else natDigitsF fuel (n / 10) ++ [dChar (n % 10)]

/-- Decimal digit characters of a natural number, most significant first. -/
def natDigits (n : Nat) : List Char := natDigitsF (n + 1) n

/-- The natural number denoted by a list of decimal digit characters. -/
def digitsVal (cs : List Char) : Nat := cs.foldl (fun a c => 10 * a + dVal c) 0

/-- Number of times `p` divides `n` (fuelled helper). -/
def vpF (p : Nat) : Nat → Nat → Nat
  | 0, _ => 0
  | fuel + 1, n => if 2 ≤ p ∧ n ≠ 0 ∧ n % p = 0 then vpF p fuel (n / p) + 1 else 0

/-- A power `k` such that a denominator of the form `2^a * 5^b` divides
`10^k`. -/
def kOf (d : Nat) : Nat := max (vpF 2 d d) (vpF 5 d d)

/-- A rational is printable in plain decimal notation iff its denominator
divides a power of ten. -/
def Printable (v : ℚ) : Prop := (v.den : Nat) ∣ 10 ^ kOf v.den

instance (v : ℚ) : Decidable (Printable v) := by unfold Printable; infer_instance

/-- The fractional digit characters: `m` printed with left zero-padding to
exactly `k` digits. -/
def padFrac (k m : Nat) : List Char :=
  List.replicate (k - (natDigits m).length) '0' ++ natDigits m

/-- Exact decimal rendering of a rational number, mirroring how JS prints the
float values the source manipulates (integer part, then a fractional part
when the value is not an integer; a leading minus sign when negative).  Only
used on `Printable` values; other rationals (which do not arise from parsed
decimal literals) render as a placeholder. -/
def numToString (v : ℚ) : List Char :=
  if v.den ∣ 10 ^ kOf v.den then
    (if v.num < 0 then ['-'] else []) ++
    (if kOf v.den = 0 then
      natDigits (v.num.natAbs * (10 ^ kOf v.den / v.den))
    else
      natDigits (v.num.natAbs * (10 ^ kOf v.den / v.den) / 10 ^ kOf v.den) ++
        '.' :: padFrac (kOf v.den)
          (v.num.natAbs * (10 ^ kOf v.den / v.den) % 10 ^ kOf v.den))
  else ['0']

/-! ## The printer (source: the `toString` methods) -/

/-- The character of an operator. -/
def opChar : BOp → Char
  | .add => '+'
  | .sub => '-'
  | .mul => '*'
  | .div => '/'

/-- Rendering of a dice-roll modifier. -/
def modStr : Option DiceMod → List Char
  | none => []
  | some .h => ['h']
  | some .l => ['l']

/-- Canonical rendering of an expression (source: the `toString` methods).
An operation renders `left op right` with single spaces around the operator;
the left child is parenthesized iff it is an operation of strictly lower
precedence, the right child iff it is an operation of lower or equal
precedence. -/
def toStr : Exp → List Char
  | .lit v => numToString v
  | .ref x => x
  | .roll dice sides m => natDigits dice ++ 'd' :: (natDigits sides ++ modStr m)
  | .oper o l r =>
      (match l with
       | .oper lo _ _ => if prec lo < prec o then '(' :: (toStr l ++ [')']) else toStr l
       | _ => toStr l) ++
      ' ' :: opChar o :: ' ' ::
      (match r with
       | .oper ro _ _ => if prec ro ≤ prec o then '(' :: (toStr r ++ [')']) else toStr r
       | _ => toStr r)

/-! ## The lexer (source: `function* tokenize` and its sticky regex)

The token pattern, tried in this order at each position after skipping
whitespace:
1. symbol   (leading `$`/letter/`_`, then `$`/letter/`1`-`9`/`_`/`.`),
2. dice     (digits, `d`, digits, optional `h`/`l`),
3. literal  (optional `-`, digits, optional `.` digits),
4. one punctuation character from `* / ( ) + -`. -/

/-- Punctuation tokens: an operator or a parenthesis. -/
inductive Punct where
  | pop (o : BOp)
  | lparen
  | rparen
deriving DecidableEq

/-- Tokens produced by the lexer.  As in the source, references, rolls and
literals are produced directly as AST nodes. -/
inductive Tok where
  | lit (v : ℚ)
  | ref (x : List Char)
  | roll (dice sides : Nat) (mod : Option DiceMod)
  | punct (p : Punct)
deriving DecidableEq

/-- Errors: the lexer's syntax error plus the parser's distinct failure
sites, and an out-of-fuel marker that never occurs at the chosen fuel. -/
inductive PErr where
  | unexpectedInput (rest : List Char)
  | fuel
  | incomplete
  | unexpectedOperator (p : Punct)
  | unmatchedParen
  | trailingTok
deriving DecidableEq

/-- Whitespace characters skipped by the lexer (the ASCII portion of the
regex class backslash-s). -/
def isWs (c : Char) : Bool :=
  c == ' ' || c == '\t' || c == '\n' || c == '\r' || c == '\x0b' || c == '\x0c'

/-- ASCII letter test, matching the regex classes a-z, A-Z. -/
def isAlphaC (c : Char) : Bool :=
  ('a' ≤ c && c ≤ 'z') || ('A' ≤ c && c ≤ 'Z')

/-- Characters allowed to start a symbol. -/
def symStart (c : Char) : Bool := c == '$' || isAlphaC c || c == '_'

/-- Characters allowed to continue a symbol.  Note the digit range is
`1`-`9`: the character `0` is (per the source regex) not allowed. -/
def symCont (c : Char) : Bool := symStart c || c == '.' || ('1' ≤ c && c ≤ '9')

/-- The punctuation token denoted by a character, if any. -/
def punctOf (c : Char) : Option Punct :=
  if c = '+' then some (.pop .add)
  else if c = '-' then some (.pop .sub)
  else if c = '*' then some (.pop .mul)
  else if c = '/' then some (.pop .div)
  else if c = '(' then some .lparen
  else if c = ')' then some .rparen
  else none

/-- The rational value of a literal with integer digits `ds`, fractional
digits `fs` and sign `neg`. -/
def litValue (neg : Bool) (ds fs : List Char) : ℚ :=
  let v : ℚ := (digitsVal ds : ℚ) +
    (if fs.isEmpty then 0 else (digitsVal fs : ℚ) / 10 ^ fs.length)
  if neg then -v else v

/-- Finish lexing a number literal whose integer digits `ds` have been
consumed: take an optional fraction (a dot followed by at least one digit)
from `rest`. -/
def lexLit (neg : Bool) (ds rest : List Char) : Tok × List Char :=
  match rest with
  | '.' :: r2 =>
      let fs := r2.takeWhile Char.isDigit
      if fs.isEmpty then (.lit (litValue neg ds []), rest)
      else (.lit (litValue neg ds fs), r2.dropWhile Char.isDigit)
  | _ => (.lit (litValue neg ds []), rest)

/-- Lex one token from a non-empty input with no leading whitespace,
following the regex alternatives in order: symbol, dice, literal,
punctuation. -/
def lexOne : List Char → Except PErr (Tok × List Char)
  | [] => .error (.unexpectedInput [])
  | c :: cs =>
    if symStart c then
      .ok (.ref (c :: cs.takeWhile symCont), cs.dropWhile symCont)
    else if c.isDigit then
      let ds := c :: cs.takeWhile Char.isDigit
      let r1 := cs.dropWhile Char.isDigit
      match r1 with
      | 'd' :: r2 =>
          let ss := r2.takeWhile Char.isDigit
          if ss.isEmpty then .ok (lexLit false ds r1)
          else
            let r3 := r2.dropWhile Char.isDigit
            match r3 with
            | 'h' :: r4 => .ok (.roll (digitsVal ds) (digitsVal ss) (some .h), r4)
            | 'l' :: r4 => .ok (.roll (digitsVal ds) (digitsVal ss) (some .l), r4)
            | _ => .ok (.roll (digitsVal ds) (digitsVal ss) none, r3)
      | _ => .ok (lexLit false ds r1)
    else if c = '-' then
      match cs with
      | c2 :: cs2 =>
          if c2.isDigit then
            .ok (lexLit true (c2 :: cs2.takeWhile Char.isDigit) (cs2.dropWhile Char.isDigit))
          else .ok (.punct (.pop .sub), cs)
      | [] => .ok (.punct (.pop .sub), cs)
    else
      match punctOf c with
      | some p => .ok (.punct p, cs)
      | none => .error (.unexpectedInput (c :: cs))

/-- The lexer loop: skip whitespace, lex one token, repeat until the input
is exhausted.  A non-empty all-whitespace remainder is a syntax error, as in
the source (the sticky regex requires a token after the whitespace).  The
fuel is only a termination device; each iteration consumes at least one
character, so `length + 1` is always sufficient. -/
def lexLoopF : Nat → List Char → Except PErr (List Tok)
  | _, [] => .ok []
  | 0, _ => .error .fuel
  | fuel + 1, cs =>
      match cs.dropWhile isWs with
      | [] => .error (.unexpectedInput cs)
      | c :: cs' => do
          let (t, rest) ← lexOne (c :: cs')
          let ts ← lexLoopF fuel rest
          .ok (t :: ts)

/-- Tokenize a string (source: `function* tokenize`, materialized eagerly;
the parser in the source pulls tokens lazily, which only affects which of
the two syntax-error sites reports first on invalid input). -/
def tokenize (s : List Char) : Except PErr (List Tok) := lexLoopF (s.length + 1) s

/-! ## The parser (source: `parse`, `opParser`, `parseFactor`) -/

/-- The recursive-descent parser's mode: which grammar production is being
parsed.  The loop modes carry the left operand accumulated so far
(source: the local `left` of `opParser`). -/
inductive PMode where
  | factor
  | term
  | termLoop (left : Exp)
  | expr
  | exprLoop (left : Exp)

/-- The recursive-descent parser (source: `parseFactor`, `opParser` applied
as `parseTerm` and `parseExpr`).  Returns the parsed expression and the
remaining tokens.  The fuel argument is only a termination device; `parse`
supplies enough for any input. -/
def parseF : Nat → PMode → List Tok → Except PErr (Exp × List Tok)
  | 0, _, _ => .error .fuel
  | fuel + 1, m, toks =>
    match m with
    | .factor =>
        match toks with
        | [] => .error .incomplete
        | .lit v :: rest => .ok (.lit v, rest)
        | .ref x :: rest => .ok (.ref x, rest)
        | .roll d s md :: rest => .ok (.roll d s md, rest)
        | .punct .lparen :: rest => do
            let (e, r1) ← parseF fuel .expr rest
            match r1 with
            | .punct .rparen :: r2 => .ok (e, r2)
            | _ => .error .unmatchedParen
        | .punct p :: _ => .error (.unexpectedOperator p)
    | .term => do
        let (l, r) ← parseF fuel .factor toks
        parseF fuel (.termLoop l) r
    | .termLoop left =>
        match toks with
        | .punct (.pop o) :: rest =>
            if o = .mul ∨ o = .div then do
              let (rt, r2) ← parseF fuel .factor rest
              parseF fuel (.termLoop (.oper o left rt)) r2
            else .ok (left, toks)
        | _ => .ok (left, toks)
    | .expr => do
        let (l, r) ← parseF fuel .term toks
        parseF fuel (.exprLoop l) r
    | .exprLoop left =>
        match toks with
        | .punct (.pop o) :: rest =>
            if o = .add ∨ o = .sub then do
              let (rt, r2) ← parseF fuel .term rest
              parseF fuel (.exprLoop (.oper o left rt)) r2
            else .ok (left, toks)
        | _ => .ok (left, toks)

/-- Parse a token list: a full expression followed by no trailing tokens
(source: the body of `parse` after tokenizing). -/
def parseToks (ts : List Tok) : Except PErr Exp := do
  let (e, rest) ← parseF (4 * ts.length + 8) .expr ts
  match rest with
  | [] => .ok e
  | _ :: _ => .error .trailingTok

/-- Strip leading and trailing whitespace (source: `input.trim()`). -/
def trim (s : List Char) : List Char :=
  ((s.dropWhile isWs).reverse.dropWhile isWs).reverse

/-- Parse a string into an expression (source: `export function parse`). -/
def parse (s : List Char) : Except PErr Exp := do
  let ts ← tokenize (trim s)
  parseToks ts

/-! ## Roll-node bookkeeping -/

/-- The parameters of the `Roll` nodes of an expression, in left-to-right
(depth-first, left child before right child) order. -/
def rollNodes : Exp → List (Nat × Nat × Option DiceMod)
  | .lit _ => []
  | .ref _ => []
  | .roll d s m => [(d, s, m)]
  | .oper _ l r => rollNodes l ++ rollNodes r

/-- An operator is additive exactly when its precedence is `0`. -/
theorem addOrSub_iff_prec (o : BOp) : (o = .add ∨ o = .sub) ↔ prec o = 0 := by
  cases o <;> simp [prec]

/-- `mergeLeft` keeps exactly the rolls of its `farLeft` argument. -/
theorem rollNodes_mergeLeft (f : Exp) (o1 : BOp) (a : ℚ) (o2 : BOp) (b : ℚ) :
    rollNodes (mergeLeft f o1 a o2 b) = rollNodes f := by
  unfold mergeLeft
  split_ifs <;> simp [rollNodes]

/-- Simplification preserves the sequence of roll nodes. -/
theorem rollNodes_simplifyE (c : Ctx) (e : Exp) :
    rollNodes (simplifyE c e) = rollNodes e := by
  induction e with
  | lit v => rfl
  | ref x =>
      simp only [simplifyE]
      cases ctxFind c x <;> rfl
  | roll d s m => rfl
  | oper o l r ihl ihr =>
      simp only [simplifyE]
      split
      · next a b hl hr =>
          have h1 : rollNodes l = [] := by rw [← ihl, hl]; rfl
          have h2 : rollNodes r = [] := by rw [← ihr, hr]; rfl
          simp [rollNodes, h1, h2]
      · next o1 fl a b hl hr =>
          have h1 : rollNodes l = rollNodes fl := by rw [← ihl, hl]; simp [rollNodes]
          have h2 : rollNodes r = [] := by rw [← ihr, hr]; rfl
          split_ifs
          · rw [rollNodes_mergeLeft]
            simp [rollNodes, h1, h2]
          · simp [rollNodes, ← hl, h1, h2]
      · simp [rollNodes, ihl, ihr]

/-! ## Claim C8 -/

/-- C8: `simplify` never rolls dice.  In the model, `simplifyE` takes no
random source at all (rolling is impossible for it by type); every `Roll`
node simplifies to itself unchanged, and the full left-to-right sequence of
`Roll` nodes of any expression is preserved exactly by simplification —
no roll is ever pre-computed into a number. -/
theorem C8_simplify_never_rolls (c : Ctx) :
    (∀ d s m, simplifyE c (.roll d s m) = .roll d s m) ∧
    (∀ e, rollNodes (simplifyE c e) = rollNodes e) :=
  ⟨fun _ _ _ => rfl, fun e => rollNodes_simplifyE c e⟩

/-! ## Claim C3 -/

/-- C3 counterexample: with `farLeft = a`, `op1 = '+'`, `lit1 = -5`,
`op2 = '-'`, `lit2 = 3`, the larger-magnitude literal is `-5` (magnitude 5),
so the claim predicts the surviving operator `'+'` and new literal
`5 - 3 = 2`, i.e. `a + 2`.  The code compares the signed values
(`left > right`), picks `'-'` and computes `3 - (-5) = 8`, producing `a - 8`
(which is the numerically correct merge of `a + -5 - 3`). -/
theorem C3_counterexample :
    mergeLeft (Exp.ref ['a']) .add (-5) .sub 3 =
      Exp.oper .sub (Exp.ref ['a']) (Exp.lit 8) ∧
    mergeLeft (Exp.ref ['a']) .add (-5) .sub 3 ≠
      Exp.oper .add (Exp.ref ['a']) (Exp.lit 2) := by
  with_unfolding_all decide

/-- C3 (amended): in the simplifier's left-merge of
`farLeft op1 lit1 op2 lit2` with `op1 ≠ op2` of equal precedence: if the two
literal values are equal the result is `farLeft` alone; if they are unequal
the surviving operator is the one attached to the larger-**value** literal
(signed comparison, not magnitude), and the new literal is the difference
(additive case) or quotient (multiplicative case) of the larger and smaller
values. -/
theorem C3_mergeLeft_signed (farLeft : Exp) (op1 op2 : BOp) (l1 l2 : ℚ)
    (hprec : prec op1 = prec op2) (hne : op1 ≠ op2) :
    (l1 = l2 → mergeLeft farLeft op1 l1 op2 l2 = farLeft) ∧
    (l1 ≠ l2 → mergeLeft farLeft op1 l1 op2 l2 =
      .oper (if l2 < l1 then op1 else op2) farLeft
        (.lit (if prec op1 = 0 then max l1 l2 - min l1 l2
               else max l1 l2 / min l1 l2))) := by
  constructor
  · intro h
    simp [mergeLeft, hne, h]
  · intro hne2
    rw [mergeLeft, if_neg hne, if_neg hne2]
    by_cases hlt : l2 < l1
    · rw [if_pos hlt, if_pos hlt]
      have hmax : max l1 l2 = l1 := max_eq_left hlt.le
      have hmin : min l1 l2 = l2 := min_eq_right hlt.le
      rw [hmax, hmin]
      by_cases hadd : prec op1 = 0
      · rw [if_pos ((addOrSub_iff_prec op1).mpr hadd), if_pos hadd]
      · rw [if_neg fun h => hadd ((addOrSub_iff_prec op1).mp h), if_neg hadd]
    · rw [if_neg hlt, if_neg hlt]
      have hlt2 : l1 < l2 := lt_of_le_of_ne (not_lt.mp hlt) hne2
      have hmax : max l1 l2 = l2 := max_eq_right hlt2.le
      have hmin : min l1 l2 = l1 := min_eq_left hlt2.le
      have hp2 : prec op2 = prec op1 := hprec.symm
      rw [hmax, hmin]
      by_cases hadd : prec op1 = 0
      · rw [if_pos ((addOrSub_iff_prec op2).mpr (hp2.trans hadd)), if_pos hadd]
      · rw [if_neg fun h => hadd (hp2 ▸ (addOrSub_iff_prec op2).mp h), if_neg hadd]

/-- C3 witness: the amended merge rule applied at `a + 5 - 2`, giving
`a + 3`, together with the examples from the claim checked through
`simplify` on parsed inputs. -/
theorem C3_witness :
    (prec .add = prec .sub ∧ (BOp.add ≠ .sub) ∧
      ((5:ℚ) = 2 → mergeLeft (Exp.ref ['a']) .add 5 .sub 2 = Exp.ref ['a']) ∧
      ((5:ℚ) ≠ 2 → mergeLeft (Exp.ref ['a']) .add 5 .sub 2 =
        .oper (if (2:ℚ) < 5 then BOp.add else .sub) (Exp.ref ['a'])
          (.lit (if prec BOp.add = 0 then max (5:ℚ) 2 - min (5:ℚ) 2
                 else max (5:ℚ) 2 / min (5:ℚ) 2)))) ∧
    (parse "a + 5 - 5".toList).map (simplifyE []) = .ok (Exp.ref ['a']) ∧
    (parse "a + 5 - 2".toList).map (simplifyE []) =
      .ok (.oper .add (Exp.ref ['a']) (.lit 3)) := by
  refine ⟨⟨rfl, by decide, ?_, ?_⟩, ?_, ?_⟩
  · exact (C3_mergeLeft_signed (Exp.ref ['a']) .add .sub 5 2 rfl (by decide)).1
  · exact (C3_mergeLeft_signed (Exp.ref ['a']) .add .sub 5 2 rfl (by decide)).2
  · with_unfolding_all decide
  · with_unfolding_all decide

/-! ## Claim C9 -/

/-- C9: the claim (and the `Reference` class documentation: a name "can
include letters, digits, underscores, $, and periods") says a name such as
`a0` is one Reference token; the source regex's continuation class
`[$a-zA-Z1-9_.]` omits the digit `0`, so the lexer splits `a0` into the
Reference `a` followed by the Literal `0`, and `parse "a0"` consequently
fails with the trailing-token syntax error.  Names without `0`, such as
`a9`, do parse as a single Reference. -/
theorem C9_digit_zero_split :
    tokenize ['a', '0'] = .ok [Tok.ref ['a'], Tok.lit 0] ∧
    [Tok.ref ['a'], Tok.lit 0] ≠ [Tok.ref ['a', '0']] ∧
    parse ['a', '0'] = .error .trailingTok ∧
    parse ['a', '9'] = .ok (Exp.ref ['a', '9']) := by
  with_unfolding_all decide

/-! ## Claim C10 -/

/-- C10: a binary `-` immediately followed by a digit is lexed as a negative
Literal token (the literal alternative precedes punctuation in the token
pattern), so `1-2` tokenizes as the two literals `1` and `-2` and `a-2` as
the reference `a` and the literal `-2`; both fail to parse with the
unexpected-trailing-token syntax error, while `1 - 2` (whitespace before the
digit) parses as a subtraction. -/
theorem C10_minus_digit_literal :
    tokenize ['1', '-', '2'] = .ok [Tok.lit 1, Tok.lit (-2)] ∧
    parse ['1', '-', '2'] = .error .trailingTok ∧
    tokenize ['a', '-', '2'] = .ok [Tok.ref ['a'], Tok.lit (-2)] ∧
    parse ['a', '-', '2'] = .error .trailingTok ∧
    parse ['1', ' ', '-', ' ', '2'] = .ok (.oper .sub (.lit 1) (.lit 2)) := by
  with_unfolding_all decide

/-! ## Claim C6 -/

/-- C6 counterexample: the claim says a dice count that is not a positive
integer is rejected at parse time; but the token pattern for dice counts is
just "one or more digits", so `0d6` (dice count `0`, not positive) parses
successfully into a `Roll` node instead of being rejected. -/
theorem C6_counterexample :
    parse ['0', 'd', '6'] = .ok (.roll 0 6 none) ∧ ¬ (1 ≤ (0 : Nat)) := by
  constructor
  · with_unfolding_all decide
  · decide

/-- C6 (amended): no runtime error is raised during `calc` or `simplify`
(in the model both are total functions); a variable absent from the context
evaluates to `0` and simplifies to itself (never an error); non-numeric
dice parameters (`1d43o`, `3dx`) are rejected at parse time; but a dice or
side count of `0` is accepted by the parser (`0d6`, `3d0`), not rejected.
(Division by zero yields `0` in this rational-valued model; the IEEE
`±Infinity`/`NaN` behavior of the source is not representable, but in
neither semantics is an error raised.) -/
theorem C6_no_runtime_error (c : Ctx) (x : List Char) (src : Nat → ℚ) (n : Nat)
    (habsent : ctxFind c x = none) :
    (calcE (.ref x) c src n).1 = 0 ∧
    simplifyE c (.ref x) = .ref x ∧
    parse "1d43o".toList = .error .trailingTok ∧
    parse "3dx".toList = .error .trailingTok ∧
    parse "0d6".toList = .ok (.roll 0 6 none) ∧
    parse "3d0".toList = .ok (.roll 3 0 none) := by
  refine ⟨?_, ?_, ?_, ?_, ?_, ?_⟩
  · simp [calcE, habsent]
  · simp [simplifyE, habsent]
  · with_unfolding_all decide
  · with_unfolding_all decide
  · with_unfolding_all decide
  · with_unfolding_all decide

/-- C6 witness: the amended claim at the empty context and the variable
`x`. -/
theorem C6_witness :
    ctxFind [] ['x'] = none ∧
    ((calcE (.ref ['x']) [] (fun _ => 0) 0).1 = 0 ∧
     simplifyE [] (.ref ['x']) = .ref ['x'] ∧
     parse "1d43o".toList = .error .trailingTok ∧
     parse "3dx".toList = .error .trailingTok ∧
     parse "0d6".toList = .ok (.roll 0 6 none) ∧
     parse "3d0".toList = .ok (.roll 3 0 none)) :=
  ⟨rfl, C6_no_runtime_error [] ['x'] (fun _ => 0) 0 rfl⟩

/-! ## Claim C5: helper lemmas about draws, aggregation and the sink -/

/-- A single draw from a source value in `[0, 1)` lies in `[1, sides]`. -/
theorem draw1_bounds (u : ℚ) (s : Nat) (h0 : 0 ≤ u) (h1 : u < 1) (hs : 1 ≤ s) :
    1 ≤ draw1 u s ∧ draw1 u s ≤ (s : ℤ) := by
  unfold draw1
  have hs0 : (0 : ℚ) < (s : ℚ) := by positivity
  have hlow : (0 : ℤ) ≤ ⌊u * (s : ℚ)⌋ := Int.floor_nonneg.mpr (by positivity)
  have hup : ⌊u * (s : ℚ)⌋ < (s : ℤ) := by
    rw [Int.floor_lt]
    calc u * (s : ℚ) < 1 * (s : ℚ) := by exact mul_lt_mul_of_pos_right h1 hs0
    _ = ((s : ℤ) : ℚ) := by push_cast; ring
  omega

/-- The result of folding `max` is a member of the list seeded with the
accumulator. -/
theorem foldl_max_mem (xs : List ℤ) (a : ℤ) : xs.foldl max a ∈ a :: xs := by
  induction xs generalizing a with
  | nil => simp
  | cons x xs ih =>
      rcases List.mem_cons.mp (ih (max a x)) with h | h
      · rw [List.foldl_cons, h]
        rcases max_choice a x with hm | hm <;> simp [hm]
      · rw [List.foldl_cons]
        exact List.mem_cons.mpr (Or.inr (List.mem_cons.mpr (Or.inr h)))

/-- Folding `max` bounds the accumulator and every element from above. -/
theorem le_foldl_max (xs : List ℤ) (a : ℤ) :
    a ≤ xs.foldl max a ∧ ∀ y ∈ xs, y ≤ xs.foldl max a := by
  induction xs generalizing a with
  | nil => simp
  | cons x xs ih =>
      obtain ⟨h1, h2⟩ := ih (max a x)
      refine ⟨le_trans (le_max_left a x) h1, ?_⟩
      intro y hy
      rcases List.mem_cons.mp hy with rfl | hy
      · exact le_trans (le_max_right a y) h1
      · exact h2 y hy

/-- The result of folding `min` is a member of the list seeded with the
accumulator. -/
theorem foldl_min_mem (xs : List ℤ) (a : ℤ) : xs.foldl min a ∈ a :: xs := by
  induction xs generalizing a with
  | nil => simp
  | cons x xs ih =>
      rcases List.mem_cons.mp (ih (min a x)) with h | h
      · rw [List.foldl_cons, h]
        rcases min_choice a x with hm | hm <;> simp [hm]
      · rw [List.foldl_cons]
        exact List.mem_cons.mpr (Or.inr (List.mem_cons.mpr (Or.inr h)))

/-- Folding `min` bounds the accumulator and every element from below. -/
theorem foldl_min_le (xs : List ℤ) (a : ℤ) :
    xs.foldl min a ≤ a ∧ ∀ y ∈ xs, xs.foldl min a ≤ y := by
  induction xs generalizing a with
  | nil => simp
  | cons x xs ih =>
      obtain ⟨h1, h2⟩ := ih (min a x)
      refine ⟨le_trans h1 (min_le_left a x), ?_⟩
      intro y hy
      rcases List.mem_cons.mp hy with rfl | hy
      · exact le_trans h1 (min_le_right a y)
      · exact h2 y hy

/-- `listMax` of a non-empty list is a member and an upper bound. -/
theorem listMax_spec (xs : List ℤ) (hne : xs ≠ []) :
    listMax xs ∈ xs ∧ ∀ y ∈ xs, y ≤ listMax xs := by
  match xs with
  | [] => exact absurd rfl hne
  | x :: xs =>
      refine ⟨foldl_max_mem xs x, ?_⟩
      intro y hy
      rcases List.mem_cons.mp hy with rfl | hy
      · exact (le_foldl_max xs y).1
      · exact (le_foldl_max xs x).2 y hy

/-- `listMin` of a non-empty list is a member and a lower bound. -/
theorem listMin_spec (xs : List ℤ) (hne : xs ≠ []) :
    listMin xs ∈ xs ∧ ∀ y ∈ xs, listMin xs ≤ y := by
  match xs with
  | [] => exact absurd rfl hne
  | x :: xs =>
      refine ⟨foldl_min_mem xs x, ?_⟩
      intro y hy
      rcases List.mem_cons.mp hy with rfl | hy
      · exact (foldl_min_le xs y).1
      · exact (foldl_min_le xs x).2 y hy

/-- The `RollResult` recorded for one roll of `d` dice with `s` sides,
modifier `m`, from source position `k`. -/
def mkEntry (d s : Nat) (m : Option DiceMod) (src : Nat → ℚ) (k : Nat) : RollResult :=
  let ds := rollDraws d s src k
  ⟨s, ds, aggregate m ds⟩

/-- The sink contents predicted from the roll nodes of an expression, in
order: one entry per roll, each consuming its dice count of source values. -/
def buildLog : List (Nat × Nat × Option DiceMod) → (Nat → ℚ) → Nat → List RollResult
  | [], _, _ => []
  | (d, s, m) :: rs, src, n => mkEntry d s m src n :: buildLog rs src (n + d)

/-- Total dice count of an expression's rolls, in evaluation order. -/
def diceTot : Exp → Nat
  | .lit _ => 0
  | .ref _ => 0
  | .roll d _ _ => d
  | .oper _ l r => diceTot l + diceTot r

/-- Total dice count of a roll-node list. -/
def diceCount (rs : List (Nat × Nat × Option DiceMod)) : Nat :=
  (rs.map (fun r => r.1)).sum

/-- `diceTot` agrees with the dice count of the roll-node list. -/
theorem diceTot_eq_diceCount (e : Exp) : diceTot e = diceCount (rollNodes e) := by
  induction e with
  | lit v => rfl
  | ref x => rfl
  | roll d s m => simp [diceTot, diceCount, rollNodes]
  | oper o l r ihl ihr => simp [diceTot, diceCount, rollNodes, ihl, ihr, diceCount]

/-- Evaluation advances the random-source cursor by the total dice count. -/
theorem calcE_cursor (e : Exp) (c : Ctx) (src : Nat → ℚ) (n : Nat) :
    (calcE e c src n).2.1 = n + diceTot e := by
  induction e generalizing n with
  | lit v => simp [calcE, diceTot]
  | ref x => simp [calcE, diceTot]
  | roll d s m => simp [calcE, diceTot]
  | oper o l r ihl ihr => simp [calcE, diceTot, ihl, ihr]; omega

/-- `buildLog` distributes over appending roll-node lists, advancing the
cursor by the dice consumed by the first part. -/
theorem buildLog_append (xs ys : List (Nat × Nat × Option DiceMod))
    (src : Nat → ℚ) (n : Nat) :
    buildLog (xs ++ ys) src n =
      buildLog xs src n ++ buildLog ys src (n + diceCount xs) := by
  induction xs generalizing n with
  | nil => simp [buildLog, diceCount]
  | cons x xs ih =>
      obtain ⟨d, s, m⟩ := x
      show mkEntry d s m src n :: buildLog (xs ++ ys) src (n + d) = _
      rw [ih]
      simp [buildLog, diceCount, Nat.add_assoc]

/-- The sink recorded by evaluation is exactly `buildLog` of the roll nodes. -/
theorem calcE_log (e : Exp) (c : Ctx) (src : Nat → ℚ) (n : Nat) :
    (calcE e c src n).2.2 = buildLog (rollNodes e) src n := by
  induction e generalizing n with
  | lit v => simp [calcE, rollNodes, buildLog]
  | ref x => simp [calcE, rollNodes, buildLog]
  | roll d s m => simp [calcE, rollNodes, buildLog, mkEntry]
  | oper o l r ihl ihr =>
      simp only [calcE, rollNodes, buildLog_append, ihl, ihr, calcE_cursor,
        diceTot_eq_diceCount]

/-- Draws of a roll with at least one die form a non-empty list. -/
theorem rollDraws_ne_nil (d s : Nat) (src : Nat → ℚ) (k : Nat) (hd : 1 ≤ d) :
    rollDraws d s src k ≠ [] := by
  unfold rollDraws
  cases d with
  | zero => omega
  | succ d => simp [List.range_succ_eq_map]

/-- Every draw of a roll lies in `[1, sides]` when the source stays in
`[0, 1)` and there is at least one side. -/
theorem rollDraws_bounds (d s : Nat) (src : Nat → ℚ) (k : Nat)
    (hsrc : ∀ i, 0 ≤ src i ∧ src i < 1) (hs : 1 ≤ s) :
    ∀ x ∈ rollDraws d s src k, 1 ≤ x ∧ x ≤ (s : ℤ) := by
  intro x hx
  unfold rollDraws at hx
  obtain ⟨i, _, rfl⟩ := List.mem_map.mp hx
  exact draw1_bounds _ s (hsrc (k + i)).1 (hsrc (k + i)).2 hs

/-- Folding addition over a list equals the accumulator plus the list sum. -/
theorem foldl_add_eq_sum (xs : List ℤ) (a : ℤ) : xs.foldl (· + ·) a = a + xs.sum := by
  induction xs generalizing a with
  | nil => simp
  | cons x xs ih => simp [List.foldl_cons, ih (a + x)]; ring

/-- Every entry of `buildLog` is `mkEntry` of one of the roll nodes at some
cursor position. -/
theorem mem_buildLog (rs : List (Nat × Nat × Option DiceMod)) (src : Nat → ℚ) :
    ∀ n, ∀ entry ∈ buildLog rs src n,
      ∃ d s m k, (d, s, m) ∈ rs ∧ entry = mkEntry d s m src k := by
  induction rs with
  | nil => intro n entry h; simp [buildLog] at h
  | cons r rs ih =>
      obtain ⟨d, s, m⟩ := r
      intro n entry h
      rcases List.mem_cons.mp h with rfl | h
      · exact ⟨d, s, m, n, List.mem_cons_self _ _, rfl⟩
      · obtain ⟨d', s', m', k, hmem, hent⟩ := ih (n + d) entry h
        exact ⟨d', s', m', k, List.mem_cons_of_mem _ hmem, hent⟩

/-! ## Claim C5 -/

/-- C5: with a random source confined to `[0,1)` and every roll of the
expression having at least one die and one side: the sink recorded by `calc`
is exactly one entry per `Roll` node in left-to-right depth-first evaluation
order (an operation evaluates its left child first), each entry consuming
its dice count of consecutive source values (`buildLog`); each recorded draw
(`1 + Math.floor(u * sides)`) is an integer in `[1, sides]`; and the
recorded value of an entry is the sum of its draws with no modifier, their
maximum with modifier `h`, and their minimum with modifier `l`. -/
theorem C5_roll_semantics (e : Exp) (c : Ctx) (src : Nat → ℚ) (n : Nat)
    (hsrc : ∀ i, 0 ≤ src i ∧ src i < 1)
    (hwf : ∀ r ∈ rollNodes e, 1 ≤ r.1 ∧ 1 ≤ r.2.1) :
    (calcE e c src n).2.2 = buildLog (rollNodes e) src n ∧
    (∀ entry ∈ (calcE e c src n).2.2,
       ∀ x ∈ entry.rolls, 1 ≤ x ∧ x ≤ (entry.die : ℤ)) ∧
    (∀ d s m k, 1 ≤ d →
       ((mkEntry d s m src k).rolls = rollDraws d s src k ∧
        (mkEntry d s m src k).die = s) ∧
       (m = none →
         (mkEntry d s m src k).value = (mkEntry d s m src k).rolls.sum) ∧
       (m = some .h →
         (mkEntry d s m src k).value ∈ (mkEntry d s m src k).rolls ∧
         ∀ x ∈ (mkEntry d s m src k).rolls, x ≤ (mkEntry d s m src k).value) ∧
       (m = some .l →
         (mkEntry d s m src k).value ∈ (mkEntry d s m src k).rolls ∧
         ∀ x ∈ (mkEntry d s m src k).rolls, (mkEntry d s m src k).value ≤ x)) := by
  refine ⟨calcE_log e c src n, ?_, ?_⟩
  · intro entry hentry x hx
    rw [calcE_log] at hentry
    obtain ⟨d, s, m, k, hmem, rfl⟩ := mem_buildLog (rollNodes e) src n entry hentry
    have hs : 1 ≤ s := (hwf _ hmem).2
    exact rollDraws_bounds d s src k hsrc hs x hx
  · intro d s m k hd
    refine ⟨⟨rfl, rfl⟩, ?_, ?_, ?_⟩
    · rintro rfl
      show aggregate none (rollDraws d s src k) = (rollDraws d s src k).sum
      simp [aggregate, foldl_add_eq_sum]
    · rintro rfl
      exact listMax_spec _ (rollDraws_ne_nil d s src k hd)
    · rintro rfl
      exact listMin_spec _ (rollDraws_ne_nil d s src k hd)

/-- C5 witness: the claim instantiated at the expression `2d6 + 1d4h`, the
constant source `1/2`, and the empty context. -/
theorem C5_witness :
    (∀ i : Nat, 0 ≤ (fun _ : Nat => (1 : ℚ)/2) i ∧ (fun _ : Nat => (1 : ℚ)/2) i < 1) ∧
    (∀ r ∈ rollNodes (.oper .add (.roll 2 6 none) (.roll 1 4 (some .h))),
       1 ≤ r.1 ∧ 1 ≤ r.2.1) ∧
    (calcE (.oper .add (.roll 2 6 none) (.roll 1 4 (some .h))) []
        (fun _ => (1 : ℚ)/2) 0).2.2 =
      buildLog (rollNodes (.oper .add (.roll 2 6 none) (.roll 1 4 (some .h))))
        (fun _ => (1 : ℚ)/2) 0 := by
  have h1 : ∀ i : Nat, 0 ≤ (fun _ : Nat => (1 : ℚ)/2) i ∧
      (fun _ : Nat => (1 : ℚ)/2) i < 1 := fun i => ⟨by norm_num, by norm_num⟩
  have h2 : ∀ r ∈ rollNodes (.oper .add (.roll 2 6 none) (.roll 1 4 (some .h))),
      1 ≤ r.1 ∧ 1 ≤ r.2.1 := by decide
  exact ⟨h1, h2,
    (C5_roll_semantics (.oper .add (.roll 2 6 none) (.roll 1 4 (some .h))) []
      (fun _ => (1 : ℚ)/2) 0 h1 h2).1⟩

/-! ## Claim C7: idempotence of the simplifier -/

/-- Is an expression a literal node? -/
def isLit : Exp → Bool
  | .lit _ => true
  | _ => false

/-- Does the left child have the shape that triggers a left-merge under an
operator of the precedence of `o` (an operation whose right child is a
literal, at equal precedence)? -/
def mergeShape (o : BOp) : Exp → Bool
  | .oper o1 _ (.lit _) => prec o1 = prec o
  | _ => false

/-- Fully-simplified (fixpoint) trees: every reference is unresolved in the
context, no operation has two literal children, and no left-merge is
possible anywhere. -/
def SimplifiedB (c : Ctx) : Exp → Bool
  | .lit _ => true
  | .roll _ _ _ => true
  | .ref x => (ctxFind c x).isNone
  | .oper o l r =>
      SimplifiedB c l && SimplifiedB c r &&
      !(isLit l && isLit r) && !(isLit r && mergeShape o l)

/-- `mergeShape` depends only on the precedence of the operator. -/
theorem mergeShape_congr (o o' : BOp) (e : Exp) (h : prec o = prec o') :
    mergeShape o e = mergeShape o' e := by
  cases e with
  | oper o1 l r => cases r <;> simp [mergeShape, h]
  | lit v => rfl
  | ref x => rfl
  | roll d s m => rfl

/-- A fully-simplified tree is a fixpoint of the simplifier. -/
theorem simplifyE_of_simplified (c : Ctx) (e : Exp)
    (h : SimplifiedB c e = true) : simplifyE c e = e := by
  induction e with
  | lit v => rfl
  | roll d s m => rfl
  | ref x =>
      have : ctxFind c x = none := by
        simpa [SimplifiedB, Option.isNone_iff_eq_none] using h
      simp [simplifyE, this]
  | oper o l r ihl ihr =>
      simp only [SimplifiedB, Bool.and_eq_true, Bool.not_eq_true'] at h
      obtain ⟨⟨⟨hl, hr⟩, hnotlit⟩, hnotmerge⟩ := h
      have el := ihl hl
      have er := ihr hr
      simp only [simplifyE, el, er]
      split
      · next a b => simp [isLit] at hnotlit
      · next o1 fl a b =>
          split_ifs with hp
          · simp [isLit, mergeShape, hp] at hnotmerge
          · rfl
      · rfl

/-- `isLit` holds on literal nodes. -/
theorem isLit_lit (v : ℚ) : isLit (.lit v) = true := rfl

/-- `isLit` is false on operation nodes. -/
theorem isLit_oper (o : BOp) (l r : Exp) : isLit (.oper o l r) = false := rfl

/-- `mergeShape` on an operation with a literal right child is the
precedence test. -/
theorem mergeShape_oper (o o1 : BOp) (l : Exp) (v : ℚ) :
    mergeShape o (.oper o1 l (.lit v)) = decide (prec o1 = prec o) := rfl

/-- The output of `mergeLeft` is fully simplified, provided its inputs come
from a fully-simplified merge candidate. -/
theorem mergeLeft_simplified (c : Ctx) (fl : Exp) (o1 o : BOp) (a b : ℚ)
    (hfl : SimplifiedB c fl = true) (hnl : isLit fl = false)
    (hnm : mergeShape o1 fl = false) (hprec : prec o1 = prec o) :
    SimplifiedB c (mergeLeft fl o1 a o b) = true := by
  have hnm' : mergeShape o fl = false := (mergeShape_congr o o1 fl hprec.symm).trans hnm
  have key : ∀ (o' : BOp) (q : ℚ), mergeShape o' fl = false →
      SimplifiedB c (.oper o' fl (.lit q)) = true := by
    intro o' q hm
    simp [SimplifiedB, isLit_lit, hfl, hnl, hm]
  unfold mergeLeft
  split_ifs
  · exact key o1 _ hnm
  · exact key o1 _ hnm
  · exact hfl
  · exact key o1 _ hnm
  · exact key o1 _ hnm
  · exact key o _ hnm'
  · exact key o _ hnm'

/-- The simplifier always produces a fully-simplified tree. -/
theorem simplifyE_simplified (c : Ctx) (e : Exp) :
    SimplifiedB c (simplifyE c e) = true := by
  induction e with
  | lit v => rfl
  | roll d s m => rfl
  | ref x =>
      simp only [simplifyE]
      cases h : ctxFind c x <;> simp [SimplifiedB, h]
  | oper o l r ihl ihr =>
      simp only [simplifyE]
      generalize hL : simplifyE c l = l' at ihl
      generalize hR : simplifyE c r = r' at ihr
      split
      · rfl
      · next o1 fl a b =>
          simp only [SimplifiedB, Bool.and_eq_true, Bool.not_eq_true'] at ihl
          obtain ⟨⟨⟨hfl, _⟩, hnotlit⟩, hnotmerge⟩ := ihl
          have hnl : isLit fl = false := by
            cases hfi : isLit fl
            · rfl
            · rw [hfi] at hnotlit; simp [isLit] at hnotlit
          have hnm : mergeShape o1 fl = false := by
            cases hms : mergeShape o1 fl
            · rfl
            · rw [hms] at hnotmerge; simp [isLit] at hnotmerge
          split_ifs with hp
          · exact mergeLeft_simplified c fl o1 o a b hfl hnl hnm hp
          · simp [SimplifiedB, isLit_lit, isLit_oper, mergeShape_oper, hfl, hnl, hnm, hp]
      · next hnot1 hnot2 =>
          simp only [SimplifiedB, Bool.and_eq_true, Bool.not_eq_true', ihl, ihr,
            true_and]
          constructor
          · cases hl1 : isLit l' <;> cases hr1 : isLit r' <;> simp
            cases l' <;> simp [isLit] at hl1
            cases r' <;> simp [isLit] at hr1
            exact hnot1 _ _ rfl rfl
          · cases hr1 : isLit r' <;> cases hm1 : mergeShape o l' <;> simp
            cases r' <;> simp [isLit] at hr1
            cases l' with
            | oper o1 fl ra =>
                cases ra <;> simp [mergeShape] at hm1
                exact hnot2 _ _ _ _ rfl rfl
            | lit v => simp [mergeShape] at hm1
            | ref x => simp [mergeShape] at hm1
            | roll d s m => simp [mergeShape] at hm1

/-- C7: the simplifier is idempotent: simplifying an already-simplified
expression returns it unchanged (structurally — the JS object-identity
"unchanged" signal coincides with structural equality in this model, since
the identity-return and rebuild branches of `Operation.simplify` produce
structurally identical results); hence a repeated call is a no-op, and more
generally any fully-simplified tree is a fixpoint. -/
theorem C7_simplify_idempotent (c : Ctx) (e : Exp) :
    simplifyE c (simplifyE c e) = simplifyE c e :=
  simplifyE_of_simplified c (simplifyE c e) (simplifyE_simplified c e)

/-! ## Claim C1: simplification preserves the value of evaluation

The single exception (the counterexample below): cancelling a `* /` pair of
equal literals whose value is `0` erases a multiplication-then-division by
zero, which changes the value (in the source, `(x / 0) * 0` is `NaN`, not
`x`; in this exact-arithmetic model it is `0`).  `mergeSafe` flags exactly
the expressions in which that degenerate cancellation would fire. -/

/-- No left-merge performed while simplifying the expression cancels a
multiplicative pair of equal zero literals. -/
def mergeSafe (c : Ctx) : Exp → Bool
  | .lit _ => true
  | .ref _ => true
  | .roll _ _ _ => true
  | .oper o l r =>
      mergeSafe c l && mergeSafe c r &&
      (match simplifyE c l, simplifyE c r with
       | .oper o1 _ (.lit a), .lit b =>
           if prec o1 = prec o ∧ o1 ≠ o ∧ prec o = 1 ∧ a = 0 ∧ b = 0 then false
           else true
       | _, _ => true)

/-- C1 counterexample: for `e = 1d6 / 0 * 0` (with any context and any
random source), the simplifier cancels the `/ 0 * 0` pair and returns the
bare roll `1d6`, whose value (here `1`, from the constant source `0`)
differs from the value of `e` (`0` in this exact model; `NaN` in IEEE
arithmetic — in both semantics the two sides disagree), despite both sides
drawing the same random values. -/
theorem C1_counterexample :
    simplifyE [] (.oper .mul (.oper .div (.roll 1 6 none) (.lit 0)) (.lit 0)) =
      .roll 1 6 none ∧
    (calcE (.roll 1 6 none) [] (fun _ => 0) 0).1 = 1 ∧
    (calcE (.oper .mul (.oper .div (.roll 1 6 none) (.lit 0)) (.lit 0)) []
      (fun _ => 0) 0).1 = 0 ∧
    (1 : ℚ) ≠ 0 := by
  with_unfolding_all decide

/-- Evaluating the output of `mergeLeft` gives the same value, cursor and
sink as evaluating `farLeft op1 lit1 op2 lit2`, provided the operators share
precedence and the degenerate zero-cancellation case is excluded. -/
theorem calcE_mergeLeft (f : Exp) (o1 o : BOp) (a b : ℚ) (c : Ctx)
    (src : Nat → ℚ) (n : Nat) (hprec : prec o1 = prec o)
    (hsafe : ¬(o1 ≠ o ∧ prec o = 1 ∧ a = 0 ∧ b = 0)) :
    calcE (mergeLeft f o1 a o b) c src n =
      (doOp o (doOp o1 (calcE f c src n).1 a) b,
       (calcE f c src n).2.1, (calcE f c src n).2.2) := by
  rcases hf : calcE f c src n with ⟨x, cnt, log⟩
  have base : ∀ (o' : BOp) (v : ℚ), calcE (.oper o' f (.lit v)) c src n =
      (doOp o' x v, cnt, log) := by
    intro o' v
    simp [calcE, hf]
  unfold mergeLeft
  split_ifs with h1 h2 h3 h4 h5 h6
  · -- same operator, additive
    subst h1
    rw [base]
    rcases h2 with rfl | rfl <;> simp [doOp] <;> ring
  · -- same operator, multiplicative
    subst h1
    rw [base]
    cases o1 with
    | add => exact absurd (Or.inl rfl) h2
    | sub => exact absurd (Or.inr rfl) h2
    | mul => simp [doOp]; ring
    | div => simp [doOp, div_div]
  · -- different operators, equal literals: exact cancellation
    subst h3
    rw [hf]
    cases o1 <;> cases o <;> simp [prec] at hprec <;> try exact absurd rfl h1
    · -- add / sub
      simp [doOp]
    · -- sub / add
      simp [doOp]
    · -- mul / div
      have ha : a ≠ 0 := by
        intro h0
        exact hsafe ⟨h1, rfl, h0, h0⟩
      simp [doOp, mul_div_cancel_right₀ x ha]
    · -- div / mul
      have ha : a ≠ 0 := by
        intro h0
        exact hsafe ⟨h1, rfl, h0, h0⟩
      simp [doOp, div_mul_cancel₀ x ha]
  · -- different operators, right < left, surviving operator additive
    rw [base]
    cases o1 <;> cases o <;> simp [prec] at hprec <;>
      first
      | exact absurd rfl h1
      | exact absurd h5 (by decide)
      | (simp [doOp]; ring)
  · -- different operators, right < left, surviving operator multiplicative
    rw [base]
    cases o1 <;> cases o <;> simp [prec] at hprec <;>
      first
      | exact absurd rfl h1
      | exact absurd (Or.inl rfl) h5
      | exact absurd (Or.inr rfl) h5
      | simp [doOp, mul_div_assoc, div_div_eq_mul_div, div_mul_eq_mul_div]
  · -- different operators, left < right, surviving operator additive
    rw [base]
    cases o1 <;> cases o <;> simp [prec] at hprec <;>
      first
      | exact absurd rfl h1
      | exact absurd h6 (by decide)
      | (simp [doOp]; ring)
  · -- different operators, left < right, surviving operator multiplicative
    rw [base]
    cases o1 <;> cases o <;> simp [prec] at hprec <;>
      first
      | exact absurd rfl h1
      | exact absurd (Or.inl rfl) h6
      | exact absurd (Or.inr rfl) h6
      | simp [doOp, mul_div_assoc, div_div_eq_mul_div, div_mul_eq_mul_div]

/-- C1 (amended): simplification preserves the full result of evaluation —
value, random-stream cursor, and recorded roll sink — for every expression,
context and random source, provided no left-merge cancels a multiplicative
pair of equal zero literals (`mergeSafe`); both evaluations resolve the
roll nodes (which simplification keeps in place and in order) from the same
positions of the same draw stream. -/
theorem C1_simplify_preserves_calc (c : Ctx) (e : Exp) (src : Nat → ℚ) (n : Nat)
    (hsafe : mergeSafe c e = true) :
    calcE (simplifyE c e) c src n = calcE e c src n := by
  revert hsafe
  induction e generalizing n with
  | lit v => intro _; rfl
  | roll d s m => intro _; rfl
  | ref x =>
      intro _
      simp only [simplifyE]
      cases h : ctxFind c x <;> simp [calcE, h]
  | oper o l r ihl ihr =>
      intro hsafe
      simp only [mergeSafe, Bool.and_eq_true] at hsafe
      obtain ⟨⟨hsl, hsr⟩, hcond⟩ := hsafe
      have el : ∀ k, calcE (simplifyE c l) c src k = calcE l c src k :=
        fun k => ihl k hsl
      have er : ∀ k, calcE (simplifyE c r) c src k = calcE r c src k :=
        fun k => ihr k hsr
      simp only [simplifyE]
      generalize hL : simplifyE c l = l' at el hcond
      generalize hR : simplifyE c r = r' at er hcond
      split
      · next a b =>
          have ha : calcE l c src n = (a, n, []) := by
            rw [← el n]; simp [calcE]
          have hb : calcE r c src n = (b, n, []) := by
            rw [← er n]; simp [calcE]
          simp [calcE, ha, hb]
      · next o1 fl a b =>
          have hnot : ¬(prec o1 = prec o ∧ o1 ≠ o ∧ prec o = 1 ∧ a = 0 ∧ b = 0) := by
            intro hx
            simp [hx] at hcond
          split_ifs with hp
          · rcases hfl : calcE fl c src n with ⟨x, cnt, log⟩
            have hsafe' : ¬(o1 ≠ o ∧ prec o = 1 ∧ a = 0 ∧ b = 0) := by
              intro hx
              exact hnot ⟨hp, hx.1, hx.2.1, hx.2.2.1, hx.2.2.2⟩
            have ha : calcE l c src n = (doOp o1 x a, cnt, log) := by
              rw [← el n]; simp [calcE, hfl]
            have hb : calcE r c src cnt = (b, cnt, []) := by
              rw [← er cnt]; simp [calcE]
            rw [calcE_mergeLeft fl o1 o a b c src n hp hsafe', hfl]
            simp [calcE, ha, hb]
          · rcases hl2 : calcE l c src n with ⟨vl, cl, gl⟩
            have ha : calcE (.oper o1 fl (.lit a)) c src n = (vl, cl, gl) :=
              (el n).trans hl2
            have hb : calcE r c src cl = (b, cl, []) := by rw [← er cl]; rfl
            show calcE (.oper o (.oper o1 fl (.lit a)) (.lit b)) c src n = _
            conv_lhs => rw [calcE]
            conv_rhs => rw [calcE]
            rw [ha, hl2, hb]
            simp [calcE]
      · simp only [calcE, el, er]

/-- C1 witness: the amended claim at `1d6 + 5 - 2` in the empty context with
the constant source `0`: the merge produces `1d6 + 3` and both sides
evaluate to `4` after drawing the same die value `1`. -/
theorem C1_witness :
    mergeSafe [] (.oper .sub (.oper .add (.roll 1 6 none) (.lit 5)) (.lit 2)) = true ∧
    simplifyE [] (.oper .sub (.oper .add (.roll 1 6 none) (.lit 5)) (.lit 2)) =
      .oper .add (.roll 1 6 none) (.lit 3) ∧
    calcE (simplifyE [] (.oper .sub (.oper .add (.roll 1 6 none) (.lit 5)) (.lit 2)))
        [] (fun _ => 0) 0 =
      calcE (.oper .sub (.oper .add (.roll 1 6 none) (.lit 5)) (.lit 2))
        [] (fun _ => 0) 0 ∧
    (calcE (.oper .sub (.oper .add (.roll 1 6 none) (.lit 5)) (.lit 2))
        [] (fun _ => 0) 0).1 = 4 := by
  refine ⟨?_, ?_, ?_, ?_⟩
  · with_unfolding_all decide
  · with_unfolding_all decide
  · exact C1_simplify_preserves_calc []
      (.oper .sub (.oper .add (.roll 1 6 none) (.lit 5)) (.lit 2))
      (fun _ => 0) 0 (by with_unfolding_all decide)
  · with_unfolding_all decide

/-! ## Digit-string lemmas (towards the round-trip claims C4 and C2) -/

/-- Every character of `natDigitsF` is the character of a digit below ten. -/
theorem natDigitsF_chars (fuel : Nat) : ∀ n, n < fuel →
    ∀ c ∈ natDigitsF fuel n, ∃ d, d < 10 ∧ c = dChar d := by
  induction fuel with
  | zero => intro n hn; omega
  | succ fuel ih =>
      intro n _ c hc
      rw [natDigitsF] at hc
      split_ifs at hc with h10
      · rw [List.mem_singleton] at hc
        exact ⟨n, h10, hc⟩
      · rcases List.mem_append.mp hc with hc | hc
        · exact ih (n / 10) (by omega) c hc
        · rw [List.mem_singleton] at hc
          exact ⟨n % 10, by omega, hc⟩

/-- `natDigitsF` is non-empty (at positive fuel). -/
theorem natDigitsF_ne_nil (fuel n : Nat) (h : n < fuel) :
    natDigitsF fuel n ≠ [] := by
  cases fuel with
  | zero => omega
  | succ fuel =>
      rw [natDigitsF]
      split_ifs
      · simp
      · simp

/-- Value of a digit fold over an appended singleton. -/
theorem digitsVal_append_singleton (xs : List Char) (c : Char) :
    digitsVal (xs ++ [c]) = 10 * digitsVal xs + dVal c := by
  unfold digitsVal
  rw [List.foldl_append]
  rfl

/-- `dVal` inverts `dChar` below ten. -/
theorem dVal_dChar (d : Nat) (h : d < 10) : dVal (dChar d) = d := by
  interval_cases d <;> rfl

/-- `digitsVal` recovers the number printed by `natDigitsF`. -/
theorem digitsVal_natDigitsF (fuel : Nat) : ∀ n, n < fuel →
    digitsVal (natDigitsF fuel n) = n := by
  induction fuel with
  | zero => intro n hn; omega
  | succ fuel ih =>
      intro n _
      rw [natDigitsF]
      split_ifs with h10
      · show digitsVal [dChar n] = n
        unfold digitsVal
        simp [List.foldl_cons, dVal_dChar n h10]
      · rw [digitsVal_append_singleton, ih (n / 10) (by omega),
          dVal_dChar _ (by omega)]
        omega

/-- The digit string of `n` has at most `k` digits when `n < 10 ^ k`
(for `k ≥ 1`). -/
theorem natDigitsF_length (fuel : Nat) : ∀ n k, n < fuel → 1 ≤ k → n < 10 ^ k →
    (natDigitsF fuel n).length ≤ k := by
  induction fuel with
  | zero => intro n k hn; omega
  | succ fuel ih =>
      intro n k _ hk hnk
      rw [natDigitsF]
      split_ifs with h10
      · simpa using hk
      · have hk2 : 2 ≤ k := by
          by_contra hlt
          interval_cases k <;> omega
        have hdiv : n / 10 < 10 ^ (k - 1) := by
          have : 10 ^ k = 10 ^ (k - 1) * 10 := by
            conv_lhs => rw [show k = (k - 1) + 1 by omega]
            rw [pow_succ]
          omega
        have := ih (n / 10) (k - 1) (by omega) (by omega) hdiv
        simp only [List.length_append, List.length_singleton]
        omega

/-- Properties of `natDigits`: digit characters, non-empty, value. -/
theorem natDigits_spec (n : Nat) :
    (∀ c ∈ natDigits n, ∃ d, d < 10 ∧ c = dChar d) ∧
    natDigits n ≠ [] ∧ digitsVal (natDigits n) = n :=
  ⟨natDigitsF_chars (n + 1) n (by omega),
   natDigitsF_ne_nil (n + 1) n (by omega),
   digitsVal_natDigitsF (n + 1) n (by omega)⟩

/-- Leading zero characters do not change the value of a digit string. -/
theorem digitsVal_replicate_zero (j : Nat) (xs : List Char) :
    digitsVal (List.replicate j '0' ++ xs) = digitsVal xs := by
  induction j with
  | zero => rfl
  | succ j ih =>
      rw [List.replicate_succ, List.cons_append]
      show digitsVal (List.replicate j '0' ++ xs) = _
      exact ih

/-- `padFrac` has exactly `k` characters, is all digits, and has value `m`,
when `m < 10 ^ k` and `k ≥ 1`. -/
theorem padFrac_spec (k m : Nat) (hk : 1 ≤ k) (hm : m < 10 ^ k) :
    (padFrac k m).length = k ∧
    (∀ c ∈ padFrac k m, ∃ d, d < 10 ∧ c = dChar d) ∧
    digitsVal (padFrac k m) = m := by
  have hlen : (natDigits m).length ≤ k :=
    natDigitsF_length (m + 1) m k (by omega) hk hm
  refine ⟨?_, ?_, ?_⟩
  · unfold padFrac
    rw [List.length_append, List.length_replicate]
    show k - (natDigits m).length + (natDigits m).length = k
    omega
  · intro c hc
    rcases List.mem_append.mp hc with hc | hc
    · exact ⟨0, by omega, by
        have := List.eq_of_mem_replicate hc
        rw [this]; rfl⟩
    · exact (natDigits_spec m).1 c hc
  · unfold padFrac
    rw [digitsVal_replicate_zero]
    exact (natDigits_spec m).2.2

/-! ## Character-class lemmas -/

/-- A digit character code lies in `48..57`. -/
theorem isDigit_toNat (c : Char) (h : c.isDigit = true) :
    48 ≤ c.toNat ∧ c.toNat ≤ 57 := by
  simp [Char.isDigit, Char.le_def, UInt32.le_def, BitVec.le_def, Char.toNat,
    UInt32.toNat] at h ⊢
  omega

/-- Character order agrees with the order of the numeric codes. -/
theorem char_le_toNat (a b : Char) : a ≤ b ↔ a.toNat ≤ b.toNat := by
  simp [Char.le_def, UInt32.le_def, BitVec.le_def, Char.toNat, UInt32.toNat]

/-- A digit character cannot start a symbol. -/
theorem symStart_of_digit (c : Char) (h : c.isDigit = true) :
    symStart c = false := by
  obtain ⟨h1, h2⟩ := isDigit_toNat c h
  cases hs : symStart c
  · rfl
  · exfalso
    simp only [symStart, isAlphaC, Bool.or_eq_true, Bool.and_eq_true, beq_iff_eq,
      decide_eq_true_eq, char_le_toNat] at hs
    rcases hs with (hc | ⟨ha, hb⟩ | ⟨ha, hb⟩) | hc
    · rw [hc, show (Char.toNat '$') = 36 from rfl] at h1; omega
    · rw [show (Char.toNat 'a') = 97 from rfl] at ha; omega
    · rw [show (Char.toNat 'A') = 65 from rfl] at ha; omega
    · rw [hc, show (Char.toNat '_') = 95 from rfl] at h2; omega

/-- A whitespace character is neither a digit nor a symbol-start
character. -/
theorem ws_not_digit_symStart (c : Char) (hw : isWs c = true) :
    c.isDigit = false ∧ symStart c = false := by
  simp only [isWs, Bool.or_eq_true, beq_iff_eq] at hw
  rcases hw with ((((rfl | rfl) | rfl) | rfl) | rfl) | rfl <;> exact ⟨rfl, rfl⟩

/-- The digit characters are digit characters. -/
theorem dChar_isDigit (d : Nat) (h : d < 10) : (dChar d).isDigit = true := by
  interval_cases d <;> rfl

/-- Whether the head of a list fails a predicate (vacuously true when
empty). -/
def headNot (p : Char → Bool) : List Char → Prop
  | [] => True
  | c :: _ => p c = false

/-- `takeWhile`/`dropWhile` on an all-true prefix followed by a stopping
character. -/
theorem takeWhile_append_stop (p : Char → Bool) (xs rest : List Char)
    (hall : ∀ x ∈ xs, p x = true) (hstop : headNot p rest) :
    (xs ++ rest).takeWhile p = xs ∧ (xs ++ rest).dropWhile p = rest := by
  induction xs with
  | nil =>
      simp only [List.nil_append]
      cases rest with
      | nil => simp
      | cons c cs =>
          simp only [headNot] at hstop
          simp [List.takeWhile_cons, List.dropWhile_cons, hstop]
  | cons x xs ih =>
      have hx : p x = true := hall x (List.mem_cons_self _ _)
      obtain ⟨h1, h2⟩ := ih (fun y hy => hall y (List.mem_cons_of_mem _ hy))
      simp [List.takeWhile_cons, List.dropWhile_cons, hx, h1, h2]

/-! ## Token spellings -/

/-- The character of a punctuation token. -/
def punctChar : Punct → Char
  | .pop o => opChar o
  | .lparen => '('
  | .rparen => ')'

/-- The canonical spelling of one token. -/
def spell : Tok → List Char
  | .lit v => numToString v
  | .ref x => x
  | .roll d s m => natDigits d ++ 'd' :: (natDigits s ++ modStr m)
  | .punct p => [punctChar p]

/-- A well-formed variable name: non-empty, valid start character, valid
continuation characters. -/
def validName : List Char → Prop
  | [] => False
  | c :: cs => symStart c = true ∧ ∀ x ∈ cs, symCont x = true

/-- Well-formedness of one token: literal values printable, names valid. -/
def wfTok : Tok → Prop
  | .lit v => Printable v
  | .ref x => validName x
  | .roll _ _ _ => True
  | .punct _ => True

/-- What may follow a non-punctuation token in a canonical rendering: the
end of input, a space, or a closing parenthesis. -/
def atomSafe : List Char → Prop
  | [] => True
  | c :: _ => c = ' ' ∨ c = ')'

/-- Everything a stopping character guarantees for the lexer. -/
theorem atomSafe_facts (rest : List Char) (h : atomSafe rest) :
    headNot Char.isDigit rest ∧ headNot symCont rest ∧ headNot isWs rest = headNot isWs rest ∧
    (∀ cs, rest ≠ '.' :: cs) ∧ (∀ cs, rest ≠ 'd' :: cs) ∧
    (∀ cs, rest ≠ 'h' :: cs) ∧ (∀ cs, rest ≠ 'l' :: cs) := by
  cases rest with
  | nil => exact ⟨trivial, trivial, rfl, by simp, by simp, by simp, by simp⟩
  | cons c cs =>
      rcases h with rfl | rfl <;>
        exact ⟨rfl, rfl, rfl, by simp, by simp, by simp, by simp⟩

/-- An equation unfolding `lexOne` on a non-empty input. -/
theorem lexOne_cons (c : Char) (cs : List Char) :
    lexOne (c :: cs) =
      (if symStart c then
        .ok (.ref (c :: cs.takeWhile symCont), cs.dropWhile symCont)
      else if c.isDigit then
        (let ds := c :: cs.takeWhile Char.isDigit
         let r1 := cs.dropWhile Char.isDigit
         match r1 with
         | 'd' :: r2 =>
             let ss := r2.takeWhile Char.isDigit
             if ss.isEmpty then .ok (lexLit false ds r1)
             else
               let r3 := r2.dropWhile Char.isDigit
               match r3 with
               | 'h' :: r4 => .ok (.roll (digitsVal ds) (digitsVal ss) (some .h), r4)
               | 'l' :: r4 => .ok (.roll (digitsVal ds) (digitsVal ss) (some .l), r4)
               | _ => .ok (.roll (digitsVal ds) (digitsVal ss) none, r3)
         | _ => .ok (lexLit false ds r1))
      else if c = '-' then
        (match cs with
         | c2 :: cs2 =>
             if c2.isDigit then
               .ok (lexLit true (c2 :: cs2.takeWhile Char.isDigit)
                     (cs2.dropWhile Char.isDigit))
             else .ok (.punct (.pop .sub), cs)
         | [] => .ok (.punct (.pop .sub), cs))
      else
        match punctOf c with
        | some p => .ok (.punct p, cs)
        | none => .error (.unexpectedInput (c :: cs))) := rfl

/-- `lexLit` with no fraction present. -/
theorem lexLit_int (neg : Bool) (ds rest : List Char) (hsafe : atomSafe rest) :
    lexLit neg ds rest = (.lit (litValue neg ds []), rest) := by
  obtain ⟨_, _, _, hdot, _, _, _⟩ := atomSafe_facts rest hsafe
  unfold lexLit
  cases rest with
  | nil => rfl
  | cons c cs =>
      split
      · next r2 heq => exact absurd heq (hdot r2)
      · rfl

/-- `lexLit` consuming a padded fraction. -/
theorem lexLit_frac (neg : Bool) (ds : List Char) (k fp : Nat)
    (rest : List Char) (hk : 1 ≤ k) (hfp : fp < 10 ^ k) (hsafe : atomSafe rest) :
    lexLit neg ds ('.' :: (padFrac k fp ++ rest)) =
      (.lit (litValue neg ds (padFrac k fp)), rest) := by
  obtain ⟨hlen, hdigits, _⟩ := padFrac_spec k fp hk hfp
  obtain ⟨hdig, _, _, _, _, _, _⟩ := atomSafe_facts rest hsafe
  have hall : ∀ x ∈ padFrac k fp, x.isDigit = true := by
    intro x hx
    obtain ⟨d, hd, rfl⟩ := hdigits x hx
    exact dChar_isDigit d hd
  obtain ⟨htake, hdrop⟩ := takeWhile_append_stop Char.isDigit (padFrac k fp) rest hall hdig
  have hne : (padFrac k fp).isEmpty = false := by
    cases hpf : padFrac k fp with
    | nil => rw [hpf] at hlen; simp at hlen; omega
    | cons a as => rfl
  unfold lexLit
  simp only [htake, hdrop, hne, Bool.false_eq_true, if_false]

/-- Lexing any string that starts with the digits of `n` followed by a
non-digit, non-`d` tail hands off to `lexLit`. -/
theorem lexOne_digits (n : Nat) (tail : List Char)
    (hnd : headNot Char.isDigit tail) (hd : ∀ cs, tail ≠ 'd' :: cs) :
    lexOne (natDigits n ++ tail) = .ok (lexLit false (natDigits n) tail) := by
  obtain ⟨hchars, hne, _⟩ := natDigits_spec n
  obtain ⟨c, cs, hcons⟩ := List.exists_cons_of_ne_nil hne
  have hcd : c.isDigit = true := by
    obtain ⟨d, hd10, rfl⟩ := hchars c (by rw [hcons]; exact List.mem_cons_self _ _)
    exact dChar_isDigit d hd10
  have hall : ∀ x ∈ cs, x.isDigit = true := by
    intro x hx
    obtain ⟨d, hd10, rfl⟩ := hchars x (by rw [hcons]; exact List.mem_cons_of_mem _ hx)
    exact dChar_isDigit d hd10
  obtain ⟨htake, hdrop⟩ := takeWhile_append_stop Char.isDigit cs tail hall hnd
  rw [hcons, List.cons_append, lexOne_cons]
  rw [if_neg (by rw [symStart_of_digit c hcd]; exact Bool.false_ne_true),
    if_pos hcd]
  simp only [htake, hdrop]

/-- Lexing a valid symbol name followed by a stopping character yields a
single Reference token. -/
theorem lexOne_ref (x : List Char) (hx : validName x) (rest : List Char)
    (hsafe : atomSafe rest) :
    lexOne (x ++ rest) = .ok (.ref x, rest) := by
  obtain ⟨_, hsc, _, _, _, _, _⟩ := atomSafe_facts rest hsafe
  cases x with
  | nil => exact absurd hx id
  | cons c cs =>
      obtain ⟨hstart, hcont⟩ := hx
      obtain ⟨htake, hdrop⟩ := takeWhile_append_stop symCont cs rest hcont hsc
      rw [List.cons_append, lexOne_cons, if_pos hstart, htake, hdrop]

/-- Lexing a dice-roll spelling followed by a stopping character yields a
single Roll token. -/
theorem lexOne_roll (d s : Nat) (m : Option DiceMod) (rest : List Char)
    (hsafe : atomSafe rest) :
    lexOne ((natDigits d ++ 'd' :: (natDigits s ++ modStr m)) ++ rest) =
      .ok (.roll d s m, rest) := by
  obtain ⟨hdg, _, _, _, _, hh, hl⟩ := atomSafe_facts rest hsafe
  obtain ⟨hchars, hne, hval⟩ := natDigits_spec d
  obtain ⟨c, cs, hcons⟩ := List.exists_cons_of_ne_nil hne
  have hcd : c.isDigit = true := by
    obtain ⟨d0, hd10, rfl⟩ := hchars c (by rw [hcons]; exact List.mem_cons_self _ _)
    exact dChar_isDigit d0 hd10
  have hall : ∀ x ∈ cs, x.isDigit = true := by
    intro x hx
    obtain ⟨d0, hd10, rfl⟩ := hchars x (by rw [hcons]; exact List.mem_cons_of_mem _ hx)
    exact dChar_isDigit d0 hd10
  obtain ⟨hchars2, hne2, hval2⟩ := natDigits_spec s
  have hall2 : ∀ x ∈ natDigits s, x.isDigit = true := by
    intro x hx
    obtain ⟨d0, hd10, rfl⟩ := hchars2 x hx
    exact dChar_isDigit d0 hd10
  have hstop2 : headNot Char.isDigit (modStr m ++ rest) := by
    cases m with
    | none => simpa [modStr] using hdg
    | some md => cases md <;> rfl
  obtain ⟨htake2, hdrop2⟩ :=
    takeWhile_append_stop Char.isDigit (natDigits s) (modStr m ++ rest) hall2 hstop2
  have hstop1 : headNot Char.isDigit ('d' :: (natDigits s ++ (modStr m ++ rest))) := rfl
  obtain ⟨htake1, hdrop1⟩ :=
    takeWhile_append_stop Char.isDigit cs ('d' :: (natDigits s ++ (modStr m ++ rest)))
      hall hstop1
  have hss : (natDigits s).isEmpty = false := by
    cases hns : natDigits s with
    | nil => exact absurd hns hne2
    | cons a as => rfl
  have happ : (natDigits d ++ 'd' :: (natDigits s ++ modStr m)) ++ rest =
      c :: (cs ++ ('d' :: (natDigits s ++ (modStr m ++ rest)))) := by
    rw [hcons]
    simp
  rw [happ, lexOne_cons,
    if_neg (by rw [symStart_of_digit c hcd]; exact Bool.false_ne_true),
    if_pos hcd]
  simp only [htake1, hdrop1, htake2, hdrop2, hss, Bool.false_eq_true, if_false,
    ← hcons, hval, hval2]
  cases m with
  | none =>
      cases rest with
      | nil => rfl
      | cons a as =>
          rcases hsafe with h | h <;> (subst h; rfl)
  | some md => cases md <;> rfl

/-- Lexing a minus sign directly followed by the digits of `n` yields a
negative-literal hand-off to `lexLit`. -/
theorem lexOne_neg_digits (n : Nat) (tail : List Char)
    (hnd : headNot Char.isDigit tail) :
    lexOne ('-' :: (natDigits n ++ tail)) = .ok (lexLit true (natDigits n) tail) := by
  obtain ⟨hchars, hne, _⟩ := natDigits_spec n
  obtain ⟨c, cs, hcons⟩ := List.exists_cons_of_ne_nil hne
  have hcd : c.isDigit = true := by
    obtain ⟨d, hd10, rfl⟩ := hchars c (by rw [hcons]; exact List.mem_cons_self _ _)
    exact dChar_isDigit d hd10
  have hall : ∀ x ∈ cs, x.isDigit = true := by
    intro x hx
    obtain ⟨d, hd10, rfl⟩ := hchars x (by rw [hcons]; exact List.mem_cons_of_mem _ hx)
    exact dChar_isDigit d hd10
  obtain ⟨htake, hdrop⟩ := takeWhile_append_stop Char.isDigit cs tail hall hnd
  rw [hcons, List.cons_append, lexOne_cons]
  rw [if_neg (by intro h; cases h), if_neg (by intro h; cases h), if_pos rfl]
  simp only [hcd, if_true, htake, hdrop, ← hcons]

/-- The denominator of a printable rational with no fractional digits
is `1`. -/
theorem printable_den_one (v : ℚ) (hv : Printable v) (hk : kOf v.den = 0) :
    v.den = 1 := by
  unfold Printable at hv
  rw [hk] at hv
  simpa using hv

/-- A non-negative rational is its numerator magnitude over its
denominator. -/
theorem rat_of_natAbs (v : ℚ) (h : ¬v.num < 0) :
    ((v.num.natAbs : ℚ)) / (v.den : ℚ) = v := by
  have h1 : ((v.num.natAbs : ℤ) : ℚ) = ((v.num : ℤ) : ℚ) := by
    rw [Int.natAbs_of_nonneg (not_lt.mp h)]
  rw [show ((v.num.natAbs : ℕ) : ℚ) = ((v.num.natAbs : ℤ) : ℚ)
    from (Int.cast_natCast v.num.natAbs).symm, h1]
  exact Rat.num_div_den v

/-- A negative rational is minus its numerator magnitude over its
denominator. -/
theorem rat_of_natAbs_neg (v : ℚ) (h : v.num < 0) :
    -(((v.num.natAbs : ℚ)) / (v.den : ℚ)) = v := by
  have h1 : ((v.num.natAbs : ℤ) : ℚ) = -((v.num : ℤ) : ℚ) := by
    rw [Int.ofNat_natAbs_of_nonpos (le_of_lt h)]
    push_cast
    ring
  rw [show ((v.num.natAbs : ℕ) : ℚ) = ((v.num.natAbs : ℤ) : ℚ)
    from (Int.cast_natCast v.num.natAbs).symm, h1, neg_div, neg_neg]
  exact Rat.num_div_den v

/-- The scaled integer representation of a printable rational, divided by
the corresponding power of ten, recovers the magnitude of the rational. -/
theorem digits_div_pow (v : ℚ) (hv : Printable v) :
    ((v.num.natAbs * (10 ^ kOf v.den / v.den) : ℕ) : ℚ) / ((10 : ℚ) ^ kOf v.den)
      = (v.num.natAbs : ℚ) / (v.den : ℚ) := by
  have ht : v.den * (10 ^ kOf v.den / v.den) = 10 ^ kOf v.den :=
    Nat.mul_div_cancel' hv
  have htn : (10 ^ kOf v.den / v.den : ℕ) ≠ 0 := by
    intro h0
    rw [h0, Nat.mul_zero] at ht
    exact absurd ht.symm (by positivity)
  have htq : ((10 ^ kOf v.den / v.den : ℕ) : ℚ) ≠ 0 := Nat.cast_ne_zero.mpr htn
  have hcast : ((10 : ℚ) ^ kOf v.den) =
      (v.den : ℚ) * ((10 ^ kOf v.den / v.den : ℕ) : ℚ) := by
    rw [← Nat.cast_mul, ht]
    push_cast
    ring
  rw [hcast, Nat.cast_mul]
  exact mul_div_mul_right _ _ htq

/-- Splitting a scaled integer into integer part and remainder under a
power of ten. -/
theorem ip_fp_val (digits k : Nat) :
    ((digits / 10 ^ k : ℕ) : ℚ) + ((digits % 10 ^ k : ℕ) : ℚ) / ((10 : ℚ) ^ k)
      = (digits : ℚ) / ((10 : ℚ) ^ k) := by
  have hd : 10 ^ k * (digits / 10 ^ k) + digits % 10 ^ k = digits :=
    Nat.div_add_mod digits (10 ^ k)
  have h2 : ((10 ^ k * (digits / 10 ^ k) + digits % 10 ^ k : ℕ) : ℚ) = (digits : ℚ) := by
    rw [hd]
  push_cast at h2
  have h10 : ((10 : ℚ) ^ k) ≠ 0 := by positivity
  field_simp
  linarith [h2]

/-- `litValue` with no fractional digits. -/
theorem litValue_nil (neg : Bool) (ds : List Char) :
    litValue neg ds [] =
      if neg then -((digitsVal ds : ℕ) : ℚ) else ((digitsVal ds : ℕ) : ℚ) := by
  cases neg <;> simp [litValue]

/-- `litValue` with fractional digits present. -/
theorem litValue_cons_frac (neg : Bool) (ds fs : List Char) (hne : fs ≠ []) :
    litValue neg ds fs =
      (if neg then -(1 : ℚ) else 1) *
        (((digitsVal ds : ℕ) : ℚ) + ((digitsVal fs : ℕ) : ℚ) / (10 : ℚ) ^ fs.length) := by
  have : fs.isEmpty = false := by
    cases fs with
    | nil => exact absurd rfl hne
    | cons a as => rfl
  cases neg <;> simp [litValue, this]

/-- Lexing the decimal rendering of a printable rational recovers exactly
that rational as a literal token. -/
theorem lexOne_numToString (v : ℚ) (hv : Printable v) (rest : List Char)
    (hsafe : atomSafe rest) :
    lexOne (numToString v ++ rest) = .ok (.lit v, rest) := by
  obtain ⟨hdg, _, _, hdot, hdd, _, _⟩ := atomSafe_facts rest hsafe
  have h10k : (0 : ℕ) < 10 ^ kOf v.den := by positivity
  rw [numToString, if_pos (show v.den ∣ 10 ^ kOf v.den from hv)]
  by_cases hk : kOf v.den = 0
  · -- integer rendering
    have hden : v.den = 1 := printable_den_one v hv hk
    have hdigits : v.num.natAbs * (10 ^ kOf v.den / v.den) = v.num.natAbs := by
      rw [hk, hden]
      simp
    have hvala : ((v.num.natAbs : ℕ) : ℚ) / (v.den : ℚ) = ((v.num.natAbs : ℕ) : ℚ) := by
      rw [hden]
      simp
    by_cases hneg : v.num < 0
    · rw [if_pos hneg, if_pos hk, hdigits]
      show lexOne ('-' :: (natDigits v.num.natAbs ++ rest)) = _
      rw [lexOne_neg_digits _ _ hdg, lexLit_int true _ rest hsafe, litValue_nil]
      simp only [if_true, (natDigits_spec v.num.natAbs).2.2]
      have hfin : -((v.num.natAbs : ℕ) : ℚ) = v := by
        rw [← hvala]
        exact rat_of_natAbs_neg v hneg
      rw [hfin]
    · rw [if_neg hneg, if_pos hk, hdigits, List.nil_append]
      rw [lexOne_digits _ _ hdg hdd, lexLit_int false _ rest hsafe, litValue_nil]
      simp only [if_false, Bool.false_eq_true, (natDigits_spec v.num.natAbs).2.2]
      have hfin : ((v.num.natAbs : ℕ) : ℚ) = v := by
        rw [← hvala]
        exact rat_of_natAbs v hneg
      rw [hfin]
  · -- decimal rendering
    have hk1 : 1 ≤ kOf v.den := by omega
    have hfp : v.num.natAbs * (10 ^ kOf v.den / v.den) % 10 ^ kOf v.den
        < 10 ^ kOf v.den := Nat.mod_lt _ h10k
    obtain ⟨hpflen, _, hpfval⟩ := padFrac_spec _ _ hk1 hfp
    have hpfne : padFrac (kOf v.den)
        (v.num.natAbs * (10 ^ kOf v.den / v.den) % 10 ^ kOf v.den) ≠ [] := by
      intro h0
      rw [h0] at hpflen
      simp at hpflen
      omega
    have htail : headNot Char.isDigit
        ('.' :: (padFrac (kOf v.den)
          (v.num.natAbs * (10 ^ kOf v.den / v.den) % 10 ^ kOf v.den) ++ rest)) := rfl
    have hdtl : ∀ cs, ('.' :: (padFrac (kOf v.den)
        (v.num.natAbs * (10 ^ kOf v.den / v.den) % 10 ^ kOf v.den) ++ rest)) ≠
          'd' :: cs := by
      intro cs h
      cases h
    have hq : ((v.num.natAbs * (10 ^ kOf v.den / v.den) / 10 ^ kOf v.den : ℕ) : ℚ) +
        ((v.num.natAbs * (10 ^ kOf v.den / v.den) % 10 ^ kOf v.den : ℕ) : ℚ) /
          (10 : ℚ) ^ kOf v.den = (v.num.natAbs : ℚ) / (v.den : ℚ) := by
      rw [ip_fp_val]
      exact digits_div_pow v hv
    by_cases hneg : v.num < 0
    · rw [if_pos hneg, if_neg hk]
      simp only [List.append_assoc, List.cons_append, List.singleton_append,
        List.nil_append]
      rw [lexOne_neg_digits _ _ htail,
        lexLit_frac true _ _ _ rest hk1 hfp hsafe,
        litValue_cons_frac true _ _ hpfne]
      simp only [(natDigits_spec _).2.2, hpfval, hpflen, if_true]
      have hfin : (-1 : ℚ) *
          (((v.num.natAbs * (10 ^ kOf v.den / v.den) / 10 ^ kOf v.den : ℕ) : ℚ) +
            ((v.num.natAbs * (10 ^ kOf v.den / v.den) % 10 ^ kOf v.den : ℕ) : ℚ) /
              (10 : ℚ) ^ kOf v.den) = v := by
        rw [hq, neg_one_mul]
        exact rat_of_natAbs_neg v hneg
      rw [hfin]
    · rw [if_neg hneg, if_neg hk, List.nil_append]
      simp only [List.append_assoc, List.cons_append, List.nil_append]
      rw [lexOne_digits _ _ htail hdtl,
        lexLit_frac false _ _ _ rest hk1 hfp hsafe,
        litValue_cons_frac false _ _ hpfne]
      simp only [(natDigits_spec _).2.2, hpfval, hpflen, Bool.false_eq_true,
        if_false]
      have hfin : (1 : ℚ) *
          (((v.num.natAbs * (10 ^ kOf v.den / v.den) / 10 ^ kOf v.den : ℕ) : ℚ) +
            ((v.num.natAbs * (10 ^ kOf v.den / v.den) % 10 ^ kOf v.den : ℕ) : ℚ) /
              (10 : ℚ) ^ kOf v.den) = v := by
        rw [hq, one_mul]
        exact rat_of_natAbs v hneg
      rw [hfin]

/-! ## Tokenizing a rendered token stream -/

/-- A convenience: `dropWhile` is the identity when the head fails the
predicate. -/
theorem dropWhile_eq_self_of_headNot (p : Char → Bool) (xs : List Char)
    (h : headNot p xs) : xs.dropWhile p = xs := by
  cases xs with
  | nil => rfl
  | cons c cs => simp [List.dropWhile_cons, show p c = false from h]

/-- A character that is not one of the six whitespace characters is not
whitespace. -/
theorem isWs_false (c : Char) (h1 : c ≠ ' ') (h2 : c ≠ '\t') (h3 : c ≠ '\n')
    (h4 : c ≠ '\r') (h5 : c ≠ '\x0b') (h6 : c ≠ '\x0c') : isWs c = false := by
  simp [isWs, h1, h2, h3, h4, h5, h6]

/-- Digit characters are not whitespace. -/
theorem not_ws_of_digit (c : Char) (h : c.isDigit = true) : isWs c = false := by
  apply isWs_false <;> (intro he; subst he; exact absurd h (by decide))

/-- Symbol-start characters are not whitespace. -/
theorem not_ws_of_symStart (c : Char) (h : symStart c = true) : isWs c = false := by
  apply isWs_false <;> (intro he; subst he; exact absurd h (by decide))

/-- Symbol-continuation characters are not whitespace. -/
theorem not_ws_of_symCont (c : Char) (h : symCont c = true) : isWs c = false := by
  apply isWs_false <;> (intro he; subst he; exact absurd h (by decide))

/-- Every character of a printed number is a minus sign, a dot, or a
digit. -/
theorem numToString_chars (v : ℚ) :
    ∀ c ∈ numToString v, c = '-' ∨ c = '.' ∨ c.isDigit = true := by
  intro c hc
  have hnd : ∀ m : Nat, c ∈ natDigits m → c.isDigit = true := by
    intro m hm
    obtain ⟨d, hd, rfl⟩ := (natDigits_spec m).1 c hm
    exact dChar_isDigit d hd
  unfold numToString at hc
  split at hc
  · rcases List.mem_append.mp hc with h1 | h2
    · split at h1
      · rcases List.mem_singleton.mp h1 with rfl
        exact Or.inl rfl
      · simp at h1
    · split at h2
      · exact Or.inr (Or.inr (hnd _ h2))
      · rcases List.mem_append.mp h2 with h3 | h4
        · exact Or.inr (Or.inr (hnd _ h3))
        · rcases List.mem_cons.mp h4 with rfl | h5
          · exact Or.inr (Or.inl rfl)
          · unfold padFrac at h5
            rcases List.mem_append.mp h5 with h6 | h7
            · rcases List.eq_of_mem_replicate h6 with rfl
              exact Or.inr (Or.inr (by decide))
            · exact Or.inr (Or.inr (hnd _ h7))
  · rcases List.mem_singleton.mp hc with rfl
    exact Or.inr (Or.inr (by decide))

/-- No character of a printed number is whitespace. -/
theorem numToString_not_ws (v : ℚ) : ∀ c ∈ numToString v, isWs c = false := by
  intro c hc
  rcases numToString_chars v c hc with rfl | rfl | h
  · decide
  · decide
  · exact not_ws_of_digit c h

/-- A printed number is never empty. -/
theorem numToString_ne_nil (v : ℚ) : numToString v ≠ [] := by
  unfold numToString
  split
  · intro h
    rcases List.append_eq_nil.mp h with ⟨h1, h2⟩
    split at h2
    · exact (natDigits_spec _).2.1 h2
    · simp at h2
  · simp

/-- No character of a token spelling is whitespace. -/
theorem spell_not_ws (t : Tok) (h : wfTok t) : ∀ c ∈ spell t, isWs c = false := by
  have hnd : ∀ (m : Nat) (c : Char), c ∈ natDigits m → isWs c = false := by
    intro m c hm
    obtain ⟨d, hd, rfl⟩ := (natDigits_spec m).1 c hm
    exact not_ws_of_digit _ (dChar_isDigit d hd)
  cases t with
  | lit v => exact numToString_not_ws v
  | ref x =>
      cases x with
      | nil => exact absurd h id
      | cons c cs =>
          obtain ⟨hstart, hcont⟩ := h
          intro a ha
          rcases List.mem_cons.mp ha with rfl | ha2
      
        
          · exact not_ws_of_symStart a hstart
          · exact not_ws_of_symCont a (hcont a ha2)
  | roll d s m =>
      intro c hc
      rcases List.mem_append.mp hc with h1 | h2
      · exact hnd d c h1
      · rcases List.mem_cons.mp h2 with rfl | h3
        · decide
        · rcases List.mem_append.mp h3 with h4 | h5
          · exact hnd s c h4
          · cases m with
            | none => simp [modStr] at h5
            | some md =>
                cases md <;> (rcases List.mem_singleton.mp h5 with rfl; decide)
  | punct p =>
      intro c hc
      rcases List.mem_singleton.mp hc with rfl
      cases p with
      | pop o => cases o <;> decide
      | lparen => decide
      | rparen => decide

/-- A token spelling is never empty. -/
theorem spell_ne_nil (t : Tok) (h : wfTok t) : spell t ≠ [] := by
  cases t with
  | lit v => exact numToString_ne_nil v
  | ref x =>
      cases x with
      | nil => exact absurd h id
      | cons c cs => simp [spell]
  | roll d s m =>
      intro h0
      rcases List.append_eq_nil.mp h0 with ⟨h1, _⟩
      exact (natDigits_spec d).2.1 h1
  | punct p => simp [spell]

/-- The canonical character stream of a token list: each token spelled out,
with a single space on each side of every operator (this is the shape that
`toStr` produces). -/
def renderToks : List Tok → List Char
  | [] => []
  | .punct (.pop o) :: ts => ' ' :: opChar o :: ' ' :: renderToks ts
  | t :: ts => spell t ++ renderToks ts

/-- The token lists that may directly follow an atom in a canonical
rendering: nothing, an operator, or a closing parenthesis. -/
def atomFollow : List Tok → Prop
  | [] => True
  | .punct (.pop _) :: _ => True
  | .punct .rparen :: _ => True
  | _ => False

/-- Well-formed canonical token streams: tokens are well-formed, every atom
is followed by an operator, a closing parenthesis or the end, and no
operator is last. -/
def okToks : List Tok → Prop
  | [] => True
  | .punct (.pop _) :: ts => ts ≠ [] ∧ okToks ts
  | .punct _ :: ts => okToks ts
  | t :: ts => wfTok t ∧ atomFollow ts ∧ okToks ts

/-- An operator character is not whitespace. -/
theorem opChar_not_ws (o : BOp) : isWs (opChar o) = false := by
  cases o <;> decide

/-- Lexing an opening parenthesis. -/
theorem lexOne_lparen (rest : List Char) :
    lexOne ('(' :: rest) = .ok (.punct .lparen, rest) := rfl

/-- Lexing a closing parenthesis. -/
theorem lexOne_rparen (rest : List Char) :
    lexOne (')' :: rest) = .ok (.punct .rparen, rest) := rfl

/-- Lexing an operator character not followed by a digit. -/
theorem lexOne_op (o : BOp) (rest : List Char) (h : headNot Char.isDigit rest) :
    lexOne (opChar o :: rest) = .ok (.punct (.pop o), rest) := by
  cases o with
  | add => rfl
  | mul => rfl
  | div => rfl
  | sub =>
      cases rest with
      | nil => rfl
      | cons c2 cs2 =>
          have h2 : c2.isDigit = false := h
          rw [show opChar BOp.sub = '-' from rfl, lexOne_cons]
          simp [show symStart '-' = false from rfl,
            show Char.isDigit '-' = false from rfl, h2]

/-- One-step equation for the lexer loop on a non-empty input. -/
theorem lexLoopF_cons (fuel : Nat) (c : Char) (cs : List Char) :
    lexLoopF (fuel + 1) (c :: cs) =
      (match (c :: cs).dropWhile isWs with
       | [] => .error (.unexpectedInput (c :: cs))
       | c' :: cs' => do
           let (t, rest) ← lexOne (c' :: cs')
           let ts ← lexLoopF fuel rest
           .ok (t :: ts)) := rfl

/-- Binding a successful `Except` computation reduces. -/
theorem bind_ok_perr {α β : Type} (a : α) (f : α → Except PErr β) :
    (do
      let x ← (Except.ok a : Except PErr α)
      f x) = f a := rfl

/-- One full step of the lexer loop: skip whitespace, lex one token,
recurse. -/
theorem lexLoopF_step (fuel : Nat) (c d : Char) (cs ds rest : List Char)
    (t : Tok) (ts : List Tok)
    (hdrop : (c :: cs).dropWhile isWs = d :: ds)
    (hlex : lexOne (d :: ds) = .ok (t, rest))
    (hrec : lexLoopF fuel rest = .ok ts) :
    lexLoopF (fuel + 1) (c :: cs) = .ok (t :: ts) := by
  rw [lexLoopF_cons, hdrop]
  simp only [hlex, bind_ok_perr, hrec]

/-- A leading space does not change the lexer loop's result, as long as the
remaining input still holds a token. -/
theorem lexLoopF_ws_skip (f : Nat) (cs : List Char)
    (h : cs.dropWhile isWs ≠ []) :
    lexLoopF (f + 1) (' ' :: cs) = lexLoopF (f + 1) cs := by
  cases cs with
  | nil => simp [List.dropWhile] at h
  | cons d ds =>
      rw [lexLoopF_cons f ' ' (d :: ds), lexLoopF_cons f d ds]
      have hdw : (' ' :: d :: ds).dropWhile isWs = (d :: ds).dropWhile isWs := by
        simp [List.dropWhile_cons, show isWs ' ' = true from rfl]
      rw [hdw]
      obtain ⟨e, es, heq⟩ := List.exists_cons_of_ne_nil h
      rw [heq]

/-- An `atomFollow` continuation renders to an `atomSafe` character
stream. -/
theorem atomSafe_renderToks (ts : List Tok) (h : atomFollow ts) :
    atomSafe (renderToks ts) := by
  cases ts with
  | nil => trivial
  | cons t ts' =>
      cases t with
      | punct p =>
          cases p with
          | pop o => exact Or.inl rfl
          | rparen => exact Or.inr rfl
          | lparen => exact absurd h id
      | lit v => exact absurd h id
      | ref x => exact absurd h id
      | roll d s m => exact absurd h id

/-- A non-empty well-formed token stream renders to a character stream that
still holds a token after whitespace skipping. -/
theorem renderToks_dropWhile_ne (ts : List Tok) (hne : ts ≠ [])
    (hok : okToks ts) : (renderToks ts).dropWhile isWs ≠ [] := by
  cases ts with
  | nil => exact absurd rfl hne
  | cons t ts' =>
      have hgen : wfTok t → (spell t ++ renderToks ts').dropWhile isWs ≠ [] := by
        intro h
        obtain ⟨c, cs, hsp⟩ := List.exists_cons_of_ne_nil (spell_ne_nil t h)
        have hcws : isWs c = false :=
          spell_not_ws t h c (by rw [hsp]; exact List.mem_cons_self _ _)
        rw [hsp, List.cons_append]
        simp [List.dropWhile_cons, hcws]
      cases t with
      | punct p =>
          cases p with
          | pop o =>
              show ((' ' :: opChar o :: ' ' :: renderToks ts').dropWhile isWs) ≠ []
              simp [List.dropWhile_cons, show isWs ' ' = true from rfl, opChar_not_ws o]
          | lparen => exact hgen trivial
          | rparen => exact hgen trivial
      | lit v => exact hgen hok.1
      | ref x => exact hgen hok.1
      | roll d s m => exact hgen trivial

/-- The lexer loop recovers a well-formed token stream from its canonical
rendering (at any sufficient fuel). -/
theorem lexLoopF_render (ts : List Tok) :
    okToks ts → ∀ fuel, ts.length < fuel →
    lexLoopF fuel (renderToks ts) = .ok ts := by
  induction ts with
  | nil =>
      intro _ fuel _
      show lexLoopF fuel [] = .ok []
      cases fuel <;> rfl
  | cons t ts ih =>
      intro hok fuel hf
      obtain ⟨f, rfl⟩ : ∃ f, fuel = f + 1 := ⟨fuel - 1, by omega⟩
      have hatom : ∀ (hwf : wfTok t) (hok2 : okToks ts)
          (hlex : lexOne (spell t ++ renderToks ts) = .ok (t, renderToks ts)),
          lexLoopF (f + 1) (spell t ++ renderToks ts) = .ok (t :: ts) := by
        intro hwf hok2 hlex
        obtain ⟨c, cs, hsp⟩ := List.exists_cons_of_ne_nil (spell_ne_nil t hwf)
        have hcws : isWs c = false :=
          spell_not_ws t hwf c (by rw [hsp]; exact List.mem_cons_self _ _)
        have hrec : lexLoopF f (renderToks ts) = .ok ts :=
          ih hok2 f (by simp only [List.length_cons] at hf; omega)
        rw [hsp, List.cons_append] at hlex ⊢
        exact lexLoopF_step f c c (cs ++ renderToks ts) (cs ++ renderToks ts)
          (renderToks ts) t ts (by simp [List.dropWhile_cons, hcws]) hlex hrec
      cases t with
      | lit v =>
          obtain ⟨hwf, hfol, hok2⟩ := hok
          exact hatom hwf hok2 (lexOne_numToString v hwf _ (atomSafe_renderToks ts hfol))
      | ref x =>
          obtain ⟨hwf, hfol, hok2⟩ := hok
          exact hatom hwf hok2 (lexOne_ref x hwf _ (atomSafe_renderToks ts hfol))
      | roll d s m =>
          obtain ⟨hwf, hfol, hok2⟩ := hok
          exact hatom trivial hok2 (lexOne_roll d s m _ (atomSafe_renderToks ts hfol))
      | punct p =>
          cases p with
          | lparen => exact hatom trivial hok (lexOne_lparen _)
          | rparen => exact hatom trivial hok (lexOne_rparen _)
          | pop o =>
              obtain ⟨hne, hok2⟩ := hok
              show lexLoopF (f + 1) (' ' :: opChar o :: ' ' :: renderToks ts)
                = .ok (.punct (.pop o) :: ts)
              have hts1 : 1 ≤ ts.length := by
                cases ts with
                | nil => exact absurd rfl hne
                | cons a b => simp
              obtain ⟨g, rfl⟩ : ∃ g, f = g + 1 :=
                ⟨f - 1, by simp only [List.length_cons] at hf; omega⟩
              have hdrop : (' ' :: opChar o :: ' ' :: renderToks ts).dropWhile isWs
                  = opChar o :: (' ' :: renderToks ts) := by
                simp [List.dropWhile_cons, show isWs ' ' = true from rfl, opChar_not_ws o]
              have hlex := lexOne_op o (' ' :: renderToks ts)
                (show Char.isDigit ' ' = false by decide)
              have hrec : lexLoopF (g + 1) (' ' :: renderToks ts) = .ok ts := by
                rw [lexLoopF_ws_skip g (renderToks ts)
                  (renderToks_dropWhile_ne ts hne hok2)]
                exact ih hok2 (g + 1) (by simp only [List.length_cons] at hf; omega)
              exact lexLoopF_step (g + 1) ' ' (opChar o)
                (opChar o :: ' ' :: renderToks ts) (' ' :: renderToks ts)
                (' ' :: renderToks ts) (.punct (.pop o)) ts hdrop hlex hrec

/-- A rendering is at least as long as the token stream it renders. -/
theorem renderToks_length (ts : List Tok) (hok : okToks ts) :
    ts.length ≤ (renderToks ts).length := by
  induction ts with
  | nil => simp [renderToks]
  | cons t ts ih =>
      have hgen : wfTok t → okToks ts →
          (t :: ts).length ≤ (spell t ++ renderToks ts).length := by
        intro hwf hok2
        have h1 : 1 ≤ (spell t).length := by
          cases hsp : spell t with
          | nil => exact absurd hsp (spell_ne_nil t hwf)
          | cons a b => simp
        have h2 := ih hok2
        simp only [List.length_cons, List.length_append]
        omega
      cases t with
      | lit v => exact hgen hok.1 hok.2.2
      | ref x => exact hgen hok.1 hok.2.2
      | roll d s m => exact hgen trivial hok.2.2
      | punct p =>
          cases p with
          | pop o =>
              have h2 := ih hok.2
              show ts.length + 1 ≤ (' ' :: opChar o :: ' ' :: renderToks ts).length
              simp only [List.length_cons]
              omega
          | lparen => exact hgen trivial hok
          | rparen => exact hgen trivial hok

/-- The tokenizer recovers a well-formed token stream from its canonical
rendering. -/
theorem tokenize_renderToks (ts : List Tok) (hok : okToks ts) :
    tokenize (renderToks ts) = .ok ts := by
  have h := renderToks_length ts hok
  show lexLoopF ((renderToks ts).length + 1) (renderToks ts) = .ok ts
  exact lexLoopF_render ts hok _ (by omega)

/-- Trimming is the identity on a string with no leading or trailing
whitespace. -/
theorem trim_eq_self (s : List Char) (h1 : headNot isWs s)
    (h2 : headNot isWs s.reverse) : trim s = s := by
  unfold trim
  rw [dropWhile_eq_self_of_headNot isWs s h1,
    dropWhile_eq_self_of_headNot isWs s.reverse h2, List.reverse_reverse]

/-! ## The token stream of a printed expression -/

/-- The token stream underlying `toStr`: the same tree walk, emitting tokens
instead of characters, with the same parenthesization policy. -/
def toks : Exp → List Tok
  | .lit v => [.lit v]
  | .ref x => [.ref x]
  | .roll d s m => [.roll d s m]
  | .oper o l r =>
      (match l with
       | .oper lo _ _ =>
           if prec lo < prec o then .punct .lparen :: (toks l ++ [.punct .rparen])
           else toks l
       | _ => toks l) ++
      .punct (.pop o) ::
      (match r with
       | .oper ro _ _ =>
           if prec ro ≤ prec o then .punct .lparen :: (toks r ++ [.punct .rparen])
           else toks r
       | _ => toks r)

/-- The token stream of a left child under operator `o` (parenthesized when
its precedence is strictly lower). -/
def tokL (o : BOp) (l : Exp) : List Tok :=
  match l with
  | .oper lo _ _ =>
      if prec lo < prec o then .punct .lparen :: (toks l ++ [.punct .rparen])
      else toks l
  | _ => toks l

/-- The token stream of a right child under operator `o` (parenthesized when
its precedence is lower or equal). -/
def tokR (o : BOp) (r : Exp) : List Tok :=
  match r with
  | .oper ro _ _ =>
      if prec ro ≤ prec o then .punct .lparen :: (toks r ++ [.punct .rparen])
      else toks r
  | _ => toks r

/-- The characters of a left child under operator `o`, as printed by
`toStr`. -/
def strL (o : BOp) (l : Exp) : List Char :=
  match l with
  | .oper lo _ _ => if prec lo < prec o then '(' :: (toStr l ++ [')']) else toStr l
  | _ => toStr l

/-- The characters of a right child under operator `o`, as printed by
`toStr`. -/
def strR (o : BOp) (r : Exp) : List Char :=
  match r with
  | .oper ro _ _ => if prec ro ≤ prec o then '(' :: (toStr r ++ [')']) else toStr r
  | _ => toStr r

/-- The `oper` equation of `toks` through the named child helpers. -/
theorem toks_oper (o : BOp) (l r : Exp) :
    toks (.oper o l r) = tokL o l ++ .punct (.pop o) :: tokR o r := by
  cases l <;> cases r <;> rfl

/-- The `oper` equation of `toStr` through the named child helpers. -/
theorem toStr_oper (o : BOp) (l r : Exp) :
    toStr (.oper o l r) = strL o l ++ ' ' :: opChar o :: ' ' :: strR o r := by
  cases l <;> cases r <;> rfl

/-- Well-formed expressions: printable literal values and valid reference
names (so that printing them is faithful). -/
def WF : Exp → Prop
  | .lit v => Printable v
  | .ref x => validName x
  | .roll _ _ _ => True
  | .oper _ l r => WF l ∧ WF r

/-- Rendering distributes over token-list concatenation. -/
theorem renderToks_append (xs ys : List Tok) :
    renderToks (xs ++ ys) = renderToks xs ++ renderToks ys := by
  induction xs with
  | nil => rfl
  | cons t xs ih =>
      cases t with
      | punct p =>
          cases p with
          | pop o =>
              show ' ' :: opChar o :: ' ' :: renderToks (xs ++ ys) = _
              rw [ih]
              rfl
          | lparen =>
              show spell (.punct .lparen) ++ renderToks (xs ++ ys) = _
              rw [ih, ← List.append_assoc]
              rfl
          | rparen =>
              show spell (.punct .rparen) ++ renderToks (xs ++ ys) = _
              rw [ih, ← List.append_assoc]
              rfl
      | lit v =>
          show spell (.lit v) ++ renderToks (xs ++ ys) = _
          rw [ih, ← List.append_assoc]
          rfl
      | ref x =>
          show spell (.ref x) ++ renderToks (xs ++ ys) = _
          rw [ih, ← List.append_assoc]
          rfl
      | roll d s m =>
          show spell (.roll d s m) ++ renderToks (xs ++ ys) = _
          rw [ih, ← List.append_assoc]
          rfl

/-- Rendering a parenthesized group. -/
theorem renderToks_wrap (ts : List Tok) :
    renderToks (.punct .lparen :: (ts ++ [.punct .rparen])) =
      '(' :: (renderToks ts ++ [')']) := by
  show spell (.punct .lparen) ++ renderToks (ts ++ [.punct .rparen]) = _
  rw [renderToks_append]
  rfl

/-- Rendering an operator at the head of a stream. -/
theorem renderToks_opCons (o : BOp) (ts : List Tok) :
    renderToks (.punct (.pop o) :: ts) = ' ' :: opChar o :: ' ' :: renderToks ts := rfl

/-- The printed left child is the rendering of its token stream. -/
theorem strL_toks (o : BOp) (l : Exp) (ih : toStr l = renderToks (toks l)) :
    strL o l = renderToks (tokL o l) := by
  cases l with
  | oper lo a b =>
      show (if prec lo < prec o then '(' :: (toStr (.oper lo a b) ++ [')'])
        else toStr (.oper lo a b)) = renderToks (if prec lo < prec o then
          .punct .lparen :: (toks (.oper lo a b) ++ [.punct .rparen])
        else toks (.oper lo a b))
      by_cases h : prec lo < prec o
      · rw [if_pos h, if_pos h, renderToks_wrap, ih]
      · rw [if_neg h, if_neg h, ih]
  | lit w => exact ih
  | ref y => exact ih
  | roll d2 s2 m2 => exact ih

/-- The printed right child is the rendering of its token stream. -/
theorem strR_toks (o : BOp) (r : Exp) (ih : toStr r = renderToks (toks r)) :
    strR o r = renderToks (tokR o r) := by
  cases r with
  | oper ro a b =>
      show (if prec ro ≤ prec o then '(' :: (toStr (.oper ro a b) ++ [')'])
        else toStr (.oper ro a b)) = renderToks (if prec ro ≤ prec o then
          .punct .lparen :: (toks (.oper ro a b) ++ [.punct .rparen])
        else toks (.oper ro a b))
      by_cases h : prec ro ≤ prec o
      · rw [if_pos h, if_pos h, renderToks_wrap, ih]
      · rw [if_neg h, if_neg h, ih]
  | lit w => exact ih
  | ref y => exact ih
  | roll d2 s2 m2 => exact ih

/-- The printed form of an expression is the rendering of its token
stream. -/
theorem toStr_toks (e : Exp) : toStr e = renderToks (toks e) := by
  induction e with
  | lit v => simp [toStr, toks, renderToks, spell]
  | ref x => simp [toStr, toks, renderToks, spell]
  | roll d s m => simp [toStr, toks, renderToks, spell]
  | oper o l r ihl ihr =>
      rw [toStr_oper, toks_oper, renderToks_append, renderToks_opCons,
        strL_toks o l ihl, strR_toks o r ihr]

/-- The token stream of an expression is non-empty. -/
theorem toks_ne_nil (e : Exp) : toks e ≠ [] := by
  cases e with
  | lit v => simp [toks]
  | ref x => simp [toks]
  | roll d s m => simp [toks]
  | oper o l r =>
      rw [toks_oper]
      intro h
      rcases List.append_eq_nil.mp h with ⟨_, h2⟩
      simp at h2

/-- The token stream of a right child is non-empty. -/
theorem tokR_ne_nil (o : BOp) (r : Exp) : tokR o r ≠ [] := by
  cases r with
  | oper ro a b =>
      show (if prec ro ≤ prec o then
          .punct .lparen :: (toks (.oper ro a b) ++ [.punct .rparen])
        else toks (.oper ro a b)) ≠ []
      by_cases h : prec ro ≤ prec o
      · rw [if_pos h]; simp
      · rw [if_neg h]; exact toks_ne_nil _
  | lit w => exact toks_ne_nil _
  | ref y => exact toks_ne_nil _
  | roll d2 s2 m2 => exact toks_ne_nil _

/-- Token streams of well-formed expressions are well-formed, in any
continuation that may follow an atom. -/
theorem okToks_toks_append (e : Exp) (hwf : WF e) :
    ∀ ts, okToks ts → atomFollow ts → okToks (toks e ++ ts) := by
  induction e with
  | lit v => intro ts h1 h2; exact ⟨hwf, h2, h1⟩
  | ref x => intro ts h1 h2; exact ⟨hwf, h2, h1⟩
  | roll d s m => intro ts h1 h2; exact ⟨trivial, h2, h1⟩
  | oper o l r ihl ihr =>
      intro ts h1 h2
      obtain ⟨hl, hr⟩ := hwf
      rw [toks_oper, List.append_assoc, List.cons_append]
      have hR : okToks (tokR o r ++ ts) := by
        cases r with
        | oper ro a b =>
            show okToks ((if prec ro ≤ prec o then
                .punct .lparen :: (toks (.oper ro a b) ++ [.punct .rparen])
              else toks (.oper ro a b)) ++ ts)
            by_cases h : prec ro ≤ prec o
            · rw [if_pos h]
              show okToks ((toks (.oper ro a b) ++ [.punct .rparen]) ++ ts)
              rw [List.append_assoc, List.singleton_append]
              exact ihr hr _ h1 trivial
            · rw [if_neg h]
              exact ihr hr _ h1 h2
        | lit w => exact ihr hr _ h1 h2
        | ref y => exact ihr hr _ h1 h2
        | roll d2 s2 m2 => exact ihr hr _ h1 h2
      have hMid : okToks (.punct (.pop o) :: (tokR o r ++ ts)) := by
        refine ⟨?_, hR⟩
        intro h0
        rcases List.append_eq_nil.mp h0 with ⟨h3, _⟩
        exact tokR_ne_nil o r h3
      cases l with
      | oper lo a b =>
          show okToks ((if prec lo < prec o then
              .punct .lparen :: (toks (.oper lo a b) ++ [.punct .rparen])
            else toks (.oper lo a b)) ++ _)
          by_cases h : prec lo < prec o
          · rw [if_pos h]
            show okToks ((toks (.oper lo a b) ++ [.punct .rparen]) ++ _)
            rw [List.append_assoc, List.singleton_append]
            exact ihl hl _ hMid trivial
          · rw [if_neg h]
            exact ihl hl _ hMid trivial
      | lit w => exact ihl hl _ hMid trivial
      | ref y => exact ihl hl _ hMid trivial
      | roll d2 s2 m2 => exact ihl hl _ hMid trivial

/-- The token stream of a well-formed expression is well-formed. -/
theorem okToks_toks (e : Exp) (hwf : WF e) : okToks (toks e) := by
  have h := okToks_toks_append e hwf [] trivial trivial
  rwa [List.append_nil] at h

/-- Whether a token stream does not start with an operator. -/
def headAtom : List Tok → Prop
  | .punct (.pop _) :: _ => False
  | _ => True

/-- `headAtom` only looks at the head. -/
theorem headAtom_append (xs ys : List Tok) (hne : xs ≠ []) (h : headAtom xs) :
    headAtom (xs ++ ys) := by
  cases xs with
  | nil => exact absurd rfl hne
  | cons t xs' =>
      cases t with
      | punct p => cases p with
          | pop o => exact absurd h id
          | lparen => trivial
          | rparen => trivial
      | lit v => trivial
      | ref x => trivial
      | roll d s m => trivial

/-- The token stream of an expression never starts with an operator. -/
theorem toks_headAtom (e : Exp) : headAtom (toks e) := by
  induction e with
  | lit v => trivial
  | ref x => trivial
  | roll d s m => trivial
  | oper o l r ihl ihr =>
      rw [toks_oper]
      cases l with
      | oper lo a b =>
          show headAtom ((if prec lo < prec o then
              .punct .lparen :: (toks (.oper lo a b) ++ [.punct .rparen])
            else toks (.oper lo a b)) ++ _)
          by_cases h : prec lo < prec o
          · rw [if_pos h]; trivial
          · rw [if_neg h]; exact headAtom_append _ _ (toks_ne_nil _) ihl
      | lit w => exact headAtom_append _ _ (toks_ne_nil _) ihl
      | ref y => exact headAtom_append _ _ (toks_ne_nil _) ihl
      | roll d2 s2 m2 => exact headAtom_append _ _ (toks_ne_nil _) ihl

/-- The head of the reverse of an all-non-whitespace list is not
whitespace. -/
theorem headNot_reverse_of_all (xs : List Char) (hx : ∀ c ∈ xs, isWs c = false) :
    headNot isWs xs.reverse := by
  cases hrev : xs.reverse with
  | nil => trivial
  | cons c cs =>
      have hm : c ∈ xs.reverse := by rw [hrev]; exact List.mem_cons_self _ _
      show isWs c = false
      exact hx c (List.mem_reverse.mp hm)

/-- `headNot` is preserved when appending on the right of a non-empty
list. -/
theorem headNot_append_left (p : Char → Bool) (ys zs : List Char)
    (hne : ys ≠ []) (h : headNot p ys) : headNot p (ys ++ zs) := by
  cases ys with
  | nil => exact absurd rfl hne
  | cons c cs => exact h

/-- A non-empty well-formed token stream has a non-empty rendering. -/
theorem renderToks_ne_nil (ts : List Tok) (hne : ts ≠ []) (hok : okToks ts) :
    renderToks ts ≠ [] := by
  intro h0
  apply renderToks_dropWhile_ne ts hne hok
  rw [h0]
  rfl

/-- The rendering of a well-formed token stream that does not start with an
operator has no leading whitespace. -/
theorem renderToks_head (ts : List Tok) (hok : okToks ts) (hstart : headAtom ts) :
    headNot isWs (renderToks ts) := by
  cases ts with
  | nil => trivial
  | cons t ts' =>
      have hgen : wfTok t → headNot isWs (spell t ++ renderToks ts') := by
        intro hwf
        obtain ⟨c, cs, hsp⟩ := List.exists_cons_of_ne_nil (spell_ne_nil t hwf)
        rw [hsp, List.cons_append]
        exact spell_not_ws t hwf c (by rw [hsp]; exact List.mem_cons_self _ _)
      cases t with
      | punct p =>
          cases p with
          | pop o => exact absurd hstart id
          | lparen => exact hgen trivial
          | rparen => exact hgen trivial
      | lit v => exact hgen hok.1
      | ref x => exact hgen hok.1
      | roll d s m => exact hgen trivial

/-- The rendering of a well-formed token stream has no trailing
whitespace. -/
theorem renderToks_last (ts : List Tok) (hok : okToks ts) :
    headNot isWs (renderToks ts).reverse := by
  induction ts with
  | nil => trivial
  | cons t ts ih =>
      have hok2 : okToks ts := by
        cases t with
        | punct p =>
            cases p with
            | pop o => exact hok.2
            | lparen => exact hok
            | rparen => exact hok
        | lit v => exact hok.2.2
        | ref x => exact hok.2.2
        | roll d s m => exact hok.2.2
      by_cases hne : ts = []
      · subst hne
        have hsingle : wfTok t →
            headNot isWs (spell t ++ renderToks ([] : List Tok)).reverse := by
          intro hwf
          apply headNot_reverse_of_all
          intro c hc
          rcases List.mem_append.mp hc with h1 | h2
          · exact spell_not_ws t hwf c h1
          · simp [renderToks] at h2
        cases t with
        | punct p =>
            cases p with
            | pop o => exact absurd rfl hok.1
            | lparen => exact hsingle trivial
            | rparen => exact hsingle trivial
        | lit v => exact hsingle hok.1
        | ref x => exact hsingle hok.1
        | roll d s m => exact hsingle trivial
      · have hrtne : renderToks ts ≠ [] := renderToks_ne_nil ts hne hok2
        have key : ∀ X : List Char, headNot isWs ((X ++ renderToks ts).reverse) := by
          intro X
          rw [List.reverse_append]
          apply headNot_append_left _ _ _ _ (ih hok2)
          simp [hrtne]
        cases t with
        | punct p =>
            cases p with
            | pop o => exact key [' ', opChar o, ' ']
            | lparen => exact key (spell (.punct .lparen))
            | rparen => exact key (spell (.punct .rparen))
        | lit v => exact key (spell (.lit v))
        | ref x => exact key (spell (.ref x))
        | roll d s m => exact key (spell (.roll d s m))

/-- Trimming leaves the printed form of a well-formed expression
unchanged. -/
theorem trim_toStr (e : Exp) (hwf : WF e) : trim (toStr e) = toStr e := by
  rw [toStr_toks]
  exact trim_eq_self _
    (renderToks_head _ (okToks_toks e hwf) (toks_headAtom e))
    (renderToks_last _ (okToks_toks e hwf))

/-- Tokenizing the printed form of a well-formed expression yields exactly
its token stream. -/
theorem tokenize_toStr (e : Exp) (hwf : WF e) :
    tokenize (trim (toStr e)) = .ok (toks e) := by
  rw [trim_toStr e hwf, toStr_toks]
  exact tokenize_renderToks _ (okToks_toks e hwf)

/-! ## Parser correctness: spine decompositions -/

/-- Expressions acceptable at term position: anything not topped by an
additive operator (those are parenthesized by the printer at term
position). -/
def termOK : Exp → Prop
  | .oper .add _ _ => False
  | .oper .sub _ _ => False
  | _ => True

/-- The token stream of an expression at factor position: any operation is
parenthesized. -/
def fToks (e : Exp) : List Tok :=
  match e with
  | .oper _ _ _ => .punct .lparen :: (toks e ++ [.punct .rparen])
  | _ => toks e

/-- The token stream of an expression at term position: additive operations
are parenthesized. -/
def tToks (e : Exp) : List Tok :=
  match e with
  | .oper .add _ _ => .punct .lparen :: (toks e ++ [.punct .rparen])
  | .oper .sub _ _ => .punct .lparen :: (toks e ++ [.punct .rparen])
  | _ => toks e

/-- The token stream of a multiplicative chain continuation. -/
def chainT : List (BOp × Exp) → List Tok
  | [] => []
  | p :: ps => .punct (.pop p.1) :: (fToks p.2 ++ chainT ps)

/-- The token stream of an additive chain continuation. -/
def chainE : List (BOp × Exp) → List Tok
  | [] => []
  | p :: ps => .punct (.pop p.1) :: (tToks p.2 ++ chainE ps)

/-- The additive left spine of an expression: the leading term and the
chain of (operator, term) continuations. -/
def spineE : Exp → Exp × List (BOp × Exp)
  | .oper .add l r => ((spineE l).1, (spineE l).2 ++ [(.add, r)])
  | .oper .sub l r => ((spineE l).1, (spineE l).2 ++ [(.sub, r)])
  | e => (e, [])

/-- The multiplicative left spine of a term: the leading factor and the
chain of (operator, factor) continuations.  The spine stops at an additive
node (which the printer parenthesizes into a factor). -/
def spineT : Exp → Exp × List (BOp × Exp)
  | .oper .mul l r =>
      (match l with
       | .oper .mul _ _ => ((spineT l).1, (spineT l).2 ++ [(.mul, r)])
       | .oper .div _ _ => ((spineT l).1, (spineT l).2 ++ [(.mul, r)])
       | _ => (l, [(.mul, r)]))
  | .oper .div l r =>
      (match l with
       | .oper .mul _ _ => ((spineT l).1, (spineT l).2 ++ [(.div, r)])
       | .oper .div _ _ => ((spineT l).1, (spineT l).2 ++ [(.div, r)])
       | _ => (l, [(.div, r)]))
  | e => (e, [])

/-- Node count of an expression. -/
def sz : Exp → Nat
  | .oper _ l r => sz l + sz r + 1
  | _ => 1

/-- Every expression has at least one node. -/
theorem sz_pos (e : Exp) : 1 ≤ sz e := by
  cases e <;> simp [sz]

/-- The tokens allowed to follow a complete expression: nothing, or a
closing parenthesis. -/
def exprEnd : List Tok → Prop
  | [] => True
  | .punct .rparen :: _ => True
  | _ => False

/-- The tokens allowed to follow a complete term: nothing, a closing
parenthesis, or an additive operator. -/
def termEnd : List Tok → Prop
  | [] => True
  | .punct .rparen :: _ => True
  | .punct (.pop .add) :: _ => True
  | .punct (.pop .sub) :: _ => True
  | _ => False

/-- An expression ending is also a term ending. -/
theorem termEnd_of_exprEnd (rest : List Tok) (h : exprEnd rest) : termEnd rest := by
  cases rest with
  | nil => trivial
  | cons t ts =>
      cases t with
      | punct p =>
          cases p with
          | rparen => trivial
          | lparen => exact h.elim
          | pop o => exact h.elim
      | lit v => exact h.elim
      | ref x => exact h.elim
      | roll d s m => exact h.elim

/-- Chains distribute over append (multiplicative). -/
theorem chainT_append (ps qs : List (BOp × Exp)) :
    chainT (ps ++ qs) = chainT ps ++ chainT qs := by
  induction ps with
  | nil => rfl
  | cons p ps ih =>
      show .punct (.pop p.1) :: (fToks p.2 ++ chainT (ps ++ qs)) = _
      rw [ih, ← List.append_assoc]
      rfl

/-- Chains distribute over append (additive). -/
theorem chainE_append (ps qs : List (BOp × Exp)) :
    chainE (ps ++ qs) = chainE ps ++ chainE qs := by
  induction ps with
  | nil => rfl
  | cons p ps ih =>
      show .punct (.pop p.1) :: (tToks p.2 ++ chainE (ps ++ qs)) = _
      rw [ih, ← List.append_assoc]
      rfl

/-- Decomposition of an expression's token stream along its additive
spine. -/
theorem spineE_decomp (e : Exp) :
    toks e = toks (spineE e).1 ++ chainE (spineE e).2 ∧
    List.foldl (fun a p => Exp.oper p.1 a p.2) (spineE e).1 (spineE e).2 = e ∧
    termOK (spineE e).1 ∧
    sz (spineE e).1 + (spineE e).2.length ≤ sz e ∧
    (∀ p ∈ (spineE e).2, (p.1 = .add ∨ p.1 = .sub) ∧ sz p.2 < sz e) := by
  induction e with
  | lit v => exact ⟨by simp [spineE, chainE], rfl, trivial, by simp [spineE, sz], by simp [spineE]⟩
  | ref x => exact ⟨by simp [spineE, chainE], rfl, trivial, by simp [spineE, sz], by simp [spineE]⟩
  | roll d s m =>
      exact ⟨by simp [spineE, chainE], rfl, trivial, by simp [spineE, sz], by simp [spineE]⟩
  | oper o l r ihl ihr =>
      have key : ∀ (ho : o = .add ∨ o = .sub),
          toks (.oper o l r) = toks (spineE l).1 ++ chainE ((spineE l).2 ++ [(o, r)]) ∧
          List.foldl (fun a p => Exp.oper p.1 a p.2) (spineE l).1
            ((spineE l).2 ++ [(o, r)]) = .oper o l r ∧
          termOK (spineE l).1 ∧
          sz (spineE l).1 + ((spineE l).2 ++ [(o, r)]).length ≤ sz (.oper o l r) ∧
          (∀ p ∈ (spineE l).2 ++ [(o, r)],
            (p.1 = .add ∨ p.1 = .sub) ∧ sz p.2 < sz (.oper o l r)) := by
        intro ho
        obtain ⟨ih1, ih2, ih3, ih4, ih5⟩ := ihl
        have hprec : prec o = 0 := by rcases ho with rfl | rfl <;> rfl
        refine ⟨?_, ?_, ih3, ?_, ?_⟩
        · rw [toks_oper]
          have hL : tokL o l = toks l := by
            cases l with
            | oper lo a b =>
                show (if prec lo < prec o then _ else toks (.oper lo a b)) = toks (.oper lo a b)
                rw [if_neg]
                rw [hprec]
                exact Nat.not_lt_zero _
            | lit w => rfl
            | ref y => rfl
            | roll d2 s2 m2 => rfl
          have hR : tokR o r = tToks r := by
            cases r with
            | oper ro a b =>
                show (if prec ro ≤ prec o then
                    .punct .lparen :: (toks (.oper ro a b) ++ [.punct .rparen])
                  else toks (.oper ro a b)) = tToks (.oper ro a b)
                rw [hprec]
                cases ro with
                | add => rw [if_pos (by decide)]; rfl
                | sub => rw [if_pos (by decide)]; rfl
                | mul => rw [if_neg (by decide)]; rfl
                | div => rw [if_neg (by decide)]; rfl
            | lit w => rfl
            | ref y => rfl
            | roll d2 s2 m2 => rfl
          rw [hL, hR, ih1, chainE_append]
          show (toks (spineE l).1 ++ chainE (spineE l).2) ++
              .punct (.pop o) :: tToks r = _ ++ (_ ++ .punct (.pop o) :: (tToks r ++ chainE []))
          rw [List.append_assoc]
          simp [chainE]
        · rw [List.foldl_append, ih2]
          rfl
        · have h1 := sz_pos r
          simp only [List.length_append, List.length_cons, List.length_nil, sz]
          omega
        · intro p hp
          rcases List.mem_append.mp hp with h1 | h2
          · obtain ⟨hop, hsz⟩ := ih5 p h1
            have h2 := sz_pos r
            exact ⟨hop, by simp only [sz]; omega⟩
          · rcases List.mem_singleton.mp h2 with rfl
            have h3 := sz_pos l
            exact ⟨ho, by simp only [sz]; omega⟩
      cases o with
      | add => exact key (Or.inl rfl)
      | sub => exact key (Or.inr rfl)
      | mul =>
          exact ⟨by simp [spineE, chainE], rfl, trivial,
            by simp [spineE], by simp [spineE]⟩
      | div =>
          exact ⟨by simp [spineE, chainE], rfl, trivial,
            by simp [spineE], by simp [spineE]⟩

/-- A right child under a multiplicative operator is always rendered as a
factor. -/
theorem tokR_fToks (o : BOp) (r : Exp) (hpo : prec o = 1) : tokR o r = fToks r := by
  cases r with
  | oper ro a b =>
      show (if prec ro ≤ prec o then
          .punct .lparen :: (toks (.oper ro a b) ++ [.punct .rparen])
        else toks (.oper ro a b)) = fToks (.oper ro a b)
      rw [hpo, if_pos (by cases ro <;> decide)]
      rfl
  | lit w => rfl
  | ref y => rfl
  | roll d2 s2 m2 => rfl

/-- The well-decomposed property of a term's multiplicative spine. -/
def SpineTOK (t : Exp) : Prop :=
  toks t = fToks (spineT t).1 ++ chainT (spineT t).2 ∧
  List.foldl (fun a p => Exp.oper p.1 a p.2) (spineT t).1 (spineT t).2 = t ∧
  sz (spineT t).1 + (spineT t).2.length ≤ sz t ∧
  (∀ p ∈ (spineT t).2, (p.1 = .mul ∨ p.1 = .div) ∧ sz p.2 < sz t) ∧
  (∀ o2 l2 r2, t = .oper o2 l2 r2 → sz (spineT t).1 < sz t)

/-- Spine decomposition at a multiplicative node whose left child is a
factor. -/
theorem spineT_base (o : BOp) (l r : Exp) (ho : o = .mul ∨ o = .div)
    (hL : tokL o l = fToks l)
    (hsp : spineT (.oper o l r) = (l, [(o, r)])) :
    SpineTOK (.oper o l r) := by
  have hpo : prec o = 1 := by rcases ho with rfl | rfl <;> rfl
  have hr1 := sz_pos r
  unfold SpineTOK
  rw [hsp]
  refine ⟨?_, rfl, ?_, ?_, ?_⟩
  · rw [toks_oper, hL, tokR_fToks o r hpo]
    simp [chainT]
  · simp only [List.length_cons, List.length_nil, sz]
    omega
  · intro p hp
    rcases List.mem_singleton.mp hp with rfl
    have h3 := sz_pos l
    exact ⟨ho, by simp only [sz]; omega⟩
  · intro o2 l2 r2 h2
    have h3 := sz_pos l
    simp only [sz]
    omega

/-- Spine decomposition at a multiplicative node whose left child continues
the spine. -/
theorem spineT_rec (o : BOp) (l r : Exp) (ho : o = .mul ∨ o = .div)
    (hL : tokL o l = toks l)
    (hsp : spineT (.oper o l r) = ((spineT l).1, (spineT l).2 ++ [(o, r)]))
    (ih : SpineTOK l) : SpineTOK (.oper o l r) := by
  have hpo : prec o = 1 := by rcases ho with rfl | rfl <;> rfl
  have hr1 := sz_pos r
  obtain ⟨ih1, ih2, ih3, ih4, _⟩ := ih
  unfold SpineTOK
  rw [hsp]
  refine ⟨?_, ?_, ?_, ?_, ?_⟩
  · rw [toks_oper, hL, tokR_fToks o r hpo, ih1, chainT_append, List.append_assoc]
    simp [chainT]
  · rw [List.foldl_append, ih2]
    rfl
  · simp only [List.length_append, List.length_cons, List.length_nil, sz]
    omega
  · intro p hp
    rcases List.mem_append.mp hp with h1 | h2
    · obtain ⟨hop, hsz⟩ := ih4 p h1
      exact ⟨hop, by simp only [sz]; omega⟩
    · rcases List.mem_singleton.mp h2 with rfl
      have h3 := sz_pos l
      exact ⟨ho, by simp only [sz]; omega⟩
  · intro o2 l2 r2 h2
    simp only [List.length_append, List.length_cons, List.length_nil, sz] at ih3 ⊢
    omega

/-- Decomposition of a term's token stream along its multiplicative
spine. -/
theorem spineT_decomp (t : Exp) (h : termOK t) : SpineTOK t := by
  induction t with
  | lit v =>
      exact ⟨by simp [spineT, fToks, chainT], rfl, by simp [spineT],
        by simp [spineT], by intro o2 l2 r2 hh; simp at hh⟩
  | ref x =>
      exact ⟨by simp [spineT, fToks, chainT], rfl, by simp [spineT],
        by simp [spineT], by intro o2 l2 r2 hh; simp at hh⟩
  | roll d s m =>
      exact ⟨by simp [spineT, fToks, chainT], rfl, by simp [spineT],
        by simp [spineT], by intro o2 l2 r2 hh; simp at hh⟩
  | oper o l r ihl ihr =>
      cases o with
      | add => exact h.elim
      | sub => exact h.elim
      | mul =>
          cases l with
          | lit w => exact spineT_base .mul _ r (Or.inl rfl) rfl rfl
          | ref y => exact spineT_base .mul _ r (Or.inl rfl) rfl rfl
          | roll d2 s2 m2 => exact spineT_base .mul _ r (Or.inl rfl) rfl rfl
          | oper lo a b =>
              cases lo with
              | add => exact spineT_base .mul _ r (Or.inl rfl) rfl rfl
              | sub => exact spineT_base .mul _ r (Or.inl rfl) rfl rfl
              | mul => exact spineT_rec .mul _ r (Or.inl rfl) rfl rfl (ihl trivial)
              | div => exact spineT_rec .mul _ r (Or.inl rfl) rfl rfl (ihl trivial)
      | div =>
          cases l with
          | lit w => exact spineT_base .div _ r (Or.inr rfl) rfl rfl
          | ref y => exact spineT_base .div _ r (Or.inr rfl) rfl rfl
          | roll d2 s2 m2 => exact spineT_base .div _ r (Or.inr rfl) rfl rfl
          | oper lo a b =>
              cases lo with
              | add => exact spineT_base .div _ r (Or.inr rfl) rfl rfl
              | sub => exact spineT_base .div _ r (Or.inr rfl) rfl rfl
              | mul => exact spineT_rec .div _ r (Or.inr rfl) rfl rfl (ihl trivial)
              | div => exact spineT_rec .div _ r (Or.inr rfl) rfl rfl (ihl trivial)

/-! ## Parser correctness: the parse loops -/

/-- Equation: a factor parse of a literal token. -/
theorem parseF_factor_lit (fuel : Nat) (v : ℚ) (rest : List Tok) :
    parseF (fuel + 1) .factor (.lit v :: rest) = .ok (.lit v, rest) := rfl

/-- Equation: a factor parse of a reference token. -/
theorem parseF_factor_ref (fuel : Nat) (x : List Char) (rest : List Tok) :
    parseF (fuel + 1) .factor (.ref x :: rest) = .ok (.ref x, rest) := rfl

/-- Equation: a factor parse of a roll token. -/
theorem parseF_factor_roll (fuel : Nat) (d s : Nat) (m : Option DiceMod)
    (rest : List Tok) :
    parseF (fuel + 1) .factor (.roll d s m :: rest) = .ok (.roll d s m, rest) := rfl

/-- Equation: a factor parse of a parenthesized group. -/
theorem parseF_factor_lparen (fuel : Nat) (rest : List Tok) :
    parseF (fuel + 1) .factor (.punct .lparen :: rest) =
      (do
        let (e, r1) ← parseF fuel .expr rest
        match r1 with
        | .punct .rparen :: r2 => .ok (e, r2)
        | _ => .error .unmatchedParen) := rfl

/-- Equation: a term parse is a factor parse followed by the term loop. -/
theorem parseF_term_eq (fuel : Nat) (ts : List Tok) :
    parseF (fuel + 1) .term ts =
      (do
        let (l, r) ← parseF fuel .factor ts
        parseF fuel (.termLoop l) r) := rfl

/-- Equation: an expression parse is a term parse followed by the
expression loop. -/
theorem parseF_expr_eq (fuel : Nat) (ts : List Tok) :
    parseF (fuel + 1) .expr ts =
      (do
        let (l, r) ← parseF fuel .term ts
        parseF fuel (.exprLoop l) r) := rfl

/-- Equation: the term loop at an operator token. -/
theorem parseF_termLoop_cons (fuel : Nat) (left : Exp) (o : BOp) (rest : List Tok) :
    parseF (fuel + 1) (.termLoop left) (.punct (.pop o) :: rest) =
      (if o = .mul ∨ o = .div then do
        let (rt, r2) ← parseF fuel .factor rest
        parseF fuel (.termLoop (.oper o left rt)) r2
      else .ok (left, .punct (.pop o) :: rest)) := rfl

/-- Equation: the expression loop at an operator token. -/
theorem parseF_exprLoop_cons (fuel : Nat) (left : Exp) (o : BOp) (rest : List Tok) :
    parseF (fuel + 1) (.exprLoop left) (.punct (.pop o) :: rest) =
      (if o = .add ∨ o = .sub then do
        let (rt, r2) ← parseF fuel .term rest
        parseF fuel (.exprLoop (.oper o left rt)) r2
      else .ok (left, .punct (.pop o) :: rest)) := rfl

/-- The term loop stops at a term ending. -/
theorem parseF_termLoop_stop (fuel : Nat) (left : Exp) (rest : List Tok)
    (h : termEnd rest) : parseF (fuel + 1) (.termLoop left) rest = .ok (left, rest) := by
  cases rest with
  | nil => rfl
  | cons t ts =>
      cases t with
      | punct p =>
          cases p with
          | pop o =>
              cases o with
              | add => rfl
              | sub => rfl
              | mul => exact h.elim
              | div => exact h.elim
          | lparen => exact h.elim
          | rparen => rfl
      | lit v => exact h.elim
      | ref x => exact h.elim
      | roll d s m => exact h.elim

/-- The expression loop stops at an expression ending. -/
theorem parseF_exprLoop_stop (fuel : Nat) (left : Exp) (rest : List Tok)
    (h : exprEnd rest) : parseF (fuel + 1) (.exprLoop left) rest = .ok (left, rest) := by
  cases rest with
  | nil => rfl
  | cons t ts =>
      cases t with
      | punct p =>
          cases p with
          | pop o => exact h.elim
          | lparen => exact h.elim
          | rparen => rfl
      | lit v => exact h.elim
      | ref x => exact h.elim
      | roll d s m => exact h.elim

/-- A multiplicative chain rendering ends any term position. -/
theorem termEnd_chainE (ps : List (BOp × Exp)) (rest : List Tok)
    (hops : ∀ p ∈ ps, p.1 = .add ∨ p.1 = .sub) (hrest : exprEnd rest) :
    termEnd (chainE ps ++ rest) := by
  cases ps with
  | nil => exact termEnd_of_exprEnd rest hrest
  | cons p ps' =>
      show termEnd (.punct (.pop p.1) :: (tToks p.2 ++ chainE ps' ++ rest))
      rcases hops p (List.mem_cons_self _ _) with h | h <;> rw [h] <;> trivial

/-- The term loop consumes a multiplicative chain, left-associating it onto
the accumulated left operand. -/
theorem termLoop_chain (qs : List (BOp × Exp))
    (H : ∀ p ∈ qs, ∀ fuel rest, 4 * (fToks p.2).length ≤ fuel →
      parseF fuel .factor (fToks p.2 ++ rest) = .ok (p.2, rest))
    (hops : ∀ p ∈ qs, p.1 = .mul ∨ p.1 = .div) :
    ∀ left fuel rest, 4 * (chainT qs).length + 1 ≤ fuel → termEnd rest →
      parseF fuel (.termLoop left) (chainT qs ++ rest) =
        .ok (qs.foldl (fun a p => Exp.oper p.1 a p.2) left, rest) := by
  induction qs with
  | nil =>
      intro left fuel rest hf hend
      obtain ⟨f, rfl⟩ : ∃ f, fuel = f + 1 := ⟨fuel - 1, by omega⟩
      show parseF (f + 1) (.termLoop left) rest = .ok (left, rest)
      exact parseF_termLoop_stop f left rest hend
  | cons p qs ih =>
      intro left fuel rest hf hend
      obtain ⟨f, rfl⟩ : ∃ f, fuel = f + 1 := ⟨fuel - 1, by omega⟩
      have hlen : (chainT (p :: qs)).length =
          1 + (fToks p.2).length + (chainT qs).length := by
        show (.punct (.pop p.1) :: (fToks p.2 ++ chainT qs) : List Tok).length = _
        simp [List.length_append]
        omega
      show parseF (f + 1) (.termLoop left)
        (.punct (.pop p.1) :: ((fToks p.2 ++ chainT qs) ++ rest)) = _
      rw [parseF_termLoop_cons, if_pos (hops p (List.mem_cons_self _ _)),
        List.append_assoc]
      have hfac : parseF f .factor (fToks p.2 ++ (chainT qs ++ rest)) =
          .ok (p.2, chainT qs ++ rest) :=
        H p (List.mem_cons_self _ _) f (chainT qs ++ rest) (by rw [hlen] at hf; omega)
      rw [hfac, bind_ok_perr]
      have hrec := ih (fun q hq => H q (List.mem_cons_of_mem _ hq))
        (fun q hq => hops q (List.mem_cons_of_mem _ hq))
        (.oper p.1 left p.2) f rest (by rw [hlen] at hf; omega) hend
      rw [List.foldl_cons]
      exact hrec

/-- The expression loop consumes an additive chain, left-associating it
onto the accumulated left operand. -/
theorem exprLoop_chain (ps : List (BOp × Exp))
    (H : ∀ p ∈ ps, ∀ fuel rest, 4 * (tToks p.2).length + 2 ≤ fuel → termEnd rest →
      parseF fuel .term (tToks p.2 ++ rest) = .ok (p.2, rest))
    (hops : ∀ p ∈ ps, p.1 = .add ∨ p.1 = .sub) :
    ∀ left fuel rest, 4 * (chainE ps).length + 1 ≤ fuel → exprEnd rest →
      parseF fuel (.exprLoop left) (chainE ps ++ rest) =
        .ok (ps.foldl (fun a p => Exp.oper p.1 a p.2) left, rest) := by
  induction ps with
  | nil =>
      intro left fuel rest hf hend
      obtain ⟨f, rfl⟩ : ∃ f, fuel = f + 1 := ⟨fuel - 1, by omega⟩
      show parseF (f + 1) (.exprLoop left) rest = .ok (left, rest)
      exact parseF_exprLoop_stop f left rest hend
  | cons p ps ih =>
      intro left fuel rest hf hend
      obtain ⟨f, rfl⟩ : ∃ f, fuel = f + 1 := ⟨fuel - 1, by omega⟩
      have hlen : (chainE (p :: ps)).length =
          1 + (tToks p.2).length + (chainE ps).length := by
        show (.punct (.pop p.1) :: (tToks p.2 ++ chainE ps) : List Tok).length = _
        simp [List.length_append]
        omega
      show parseF (f + 1) (.exprLoop left)
        (.punct (.pop p.1) :: ((tToks p.2 ++ chainE ps) ++ rest)) = _
      rw [parseF_exprLoop_cons, if_pos (hops p (List.mem_cons_self _ _)),
        List.append_assoc]
      have hterm : parseF f .term (tToks p.2 ++ (chainE ps ++ rest)) =
          .ok (p.2, chainE ps ++ rest) :=
        H p (List.mem_cons_self _ _) f (chainE ps ++ rest)
          (by rw [hlen] at hf; omega)
          (termEnd_chainE ps rest (fun q hq => hops q (List.mem_cons_of_mem _ hq)) hend)
      rw [hterm, bind_ok_perr]
      have hrec := ih (fun q hq => H q (List.mem_cons_of_mem _ hq))
        (fun q hq => hops q (List.mem_cons_of_mem _ hq))
        (.oper p.1 left p.2) f rest (by rw [hlen] at hf; omega) hend
      rw [List.foldl_cons]
      exact hrec

/-- Parser correctness at every grammar position, by strong induction on
the node count: a factor parse consumes `fToks e`, a term parse consumes
`toks e` of a term-shaped expression, an expression parse consumes
`toks e`; each leaves the continuation untouched and returns `e`. -/
theorem parseF_toks (n : Nat) : ∀ e : Exp, sz e ≤ n →
    (∀ fuel rest, 4 * (fToks e).length ≤ fuel →
        parseF fuel .factor (fToks e ++ rest) = .ok (e, rest)) ∧
    (termOK e → ∀ fuel rest, 4 * (toks e).length + 2 ≤ fuel → termEnd rest →
        parseF fuel .term (toks e ++ rest) = .ok (e, rest)) ∧
    (∀ fuel rest, 4 * (toks e).length + 3 ≤ fuel → exprEnd rest →
        parseF fuel .expr (toks e ++ rest) = .ok (e, rest)) := by
  induction n with
  | zero =>
      intro e he
      exact absurd he (by have := sz_pos e; omega)
  | succ n ih =>
      intro e he
      have Hterm : ∀ r : Exp, sz r ≤ n → ∀ fuel rest,
          4 * (tToks r).length + 2 ≤ fuel → termEnd rest →
          parseF fuel .term (tToks r ++ rest) = .ok (r, rest) := by
        intro r hr fuel rest hf hend
        have hIH := ih r hr
        have hwrapped : ∀ (o2 : BOp) (a b : Exp), r = .oper o2 a b →
            tToks r = .punct .lparen :: (toks r ++ [.punct .rparen]) →
            parseF fuel .term (tToks r ++ rest) = .ok (r, rest) := by
          intro o2 a b hshape htt
          have hlen1 : 1 ≤ (toks r).length :=
            List.length_pos.mpr (toks_ne_nil r)
          have hlen : (tToks r).length = (toks r).length + 2 := by
            rw [htt]
            simp
          rw [hlen] at hf
          obtain ⟨f2, rfl⟩ : ∃ f2, fuel = f2 + 2 := ⟨fuel - 2, by omega⟩
          have hexpr := hIH.2.2 f2 (.punct .rparen :: rest)
            (by omega) trivial
          have hfacr : parseF (f2 + 1) .factor (tToks r ++ rest) = .ok (r, rest) := by
            rw [htt, List.cons_append, parseF_factor_lparen, List.append_assoc,
              List.singleton_append, hexpr, bind_ok_perr]
          rw [show f2 + 2 = (f2 + 1) + 1 from rfl, parseF_term_eq, hfacr, bind_ok_perr]
          exact parseF_termLoop_stop f2 r rest hend
        cases r with
        | oper o2 a b =>
            cases o2 with
            | add => exact hwrapped .add a b rfl rfl
            | sub => exact hwrapped .sub a b rfl rfl
            | mul => exact hIH.2.1 trivial fuel rest hf hend
            | div => exact hIH.2.1 trivial fuel rest hf hend
        | lit v => exact hIH.2.1 trivial fuel rest hf hend
        | ref x => exact hIH.2.1 trivial fuel rest hf hend
        | roll d2 s2 m2 => exact hIH.2.1 trivial fuel rest hf hend
      have hQ : termOK e → ∀ fuel rest, 4 * (toks e).length + 2 ≤ fuel → termEnd rest →
          parseF fuel .term (toks e ++ rest) = .ok (e, rest) := by
        intro hok fuel rest hf hend
        obtain ⟨hd1, hd2, hd3, hd4, hd5⟩ := spineT_decomp e hok
        obtain ⟨f, rfl⟩ : ∃ f, fuel = f + 1 := ⟨fuel - 1, by omega⟩
        have hlen : (toks e).length =
            (fToks (spineT e).1).length + (chainT (spineT e).2).length := by
          rw [hd1]
          simp
        rw [hlen] at hf
        rw [parseF_term_eq, hd1, List.append_assoc]
        have hfacspec : ∀ fuel2 rest2, 4 * (fToks (spineT e).1).length ≤ fuel2 →
            parseF fuel2 .factor (fToks (spineT e).1 ++ rest2) =
              .ok ((spineT e).1, rest2) := by
          cases e with
          | oper o l r =>
              have hszlt : sz (spineT (.oper o l r)).1 < sz (.oper o l r) :=
                hd5 o l r rfl
              exact fun fuel2 rest2 hh => (ih _ (by omega)).1 fuel2 rest2 hh
          | lit v =>
              intro fuel2 rest2 hh
              obtain ⟨f2, rfl⟩ : ∃ f2, fuel2 = f2 + 1 := ⟨fuel2 - 1, by
                simp [spineT, fToks, toks] at hh
                omega⟩
              exact parseF_factor_lit f2 v rest2
          | ref x =>
              intro fuel2 rest2 hh
              obtain ⟨f2, rfl⟩ : ∃ f2, fuel2 = f2 + 1 := ⟨fuel2 - 1, by
                simp [spineT, fToks, toks] at hh
                omega⟩
              exact parseF_factor_ref f2 x rest2
          | roll d2 s2 m2 =>
              intro fuel2 rest2 hh
              obtain ⟨f2, rfl⟩ : ∃ f2, fuel2 = f2 + 1 := ⟨fuel2 - 1, by
                simp [spineT, fToks, toks] at hh
                omega⟩
              exact parseF_factor_roll f2 d2 s2 m2 rest2
        have hfac := hfacspec f (chainT (spineT e).2 ++ rest) (by omega)
        rw [hfac, bind_ok_perr]
        have hloop := termLoop_chain (spineT e).2
          (fun p hp => (ih p.2 (by have := (hd4 p hp).2; omega)).1)
          (fun p hp => (hd4 p hp).1)
          (spineT e).1 f rest (by omega) hend
        exact hloop.trans (by rw [hd2])
      have hR : ∀ fuel rest, 4 * (toks e).length + 3 ≤ fuel → exprEnd rest →
          parseF fuel .expr (toks e ++ rest) = .ok (e, rest) := by
        intro fuel rest hf hend
        obtain ⟨he1, he2, heok, helen, hemem⟩ := spineE_decomp e
        obtain ⟨f, rfl⟩ : ∃ f, fuel = f + 1 := ⟨fuel - 1, by omega⟩
        have hlen : (toks e).length =
            (toks (spineE e).1).length + (chainE (spineE e).2).length := by
          rw [he1]
          simp
        rw [hlen] at hf
        rw [parseF_expr_eq, he1, List.append_assoc]
        have htermspec : ∀ fuel2 rest2, 4 * (toks (spineE e).1).length + 2 ≤ fuel2 →
            termEnd rest2 →
            parseF fuel2 .term (toks (spineE e).1 ++ rest2) =
              .ok ((spineE e).1, rest2) := by
          cases e with
          | oper o l r =>
              cases o with
              | add =>
                  have hlt : 1 ≤ (spineE (Exp.oper BOp.add l r)).2.length := by
                    show 1 ≤ ((spineE l).2 ++ [(BOp.add, r)]).length
                    simp
                  exact fun fuel2 rest2 hh hend2 =>
                    (ih (spineE (Exp.oper BOp.add l r)).1 (by omega)).2.1
                      heok fuel2 rest2 hh hend2
              | sub =>
                  have hlt : 1 ≤ (spineE (Exp.oper BOp.sub l r)).2.length := by
                    show 1 ≤ ((spineE l).2 ++ [(BOp.sub, r)]).length
                    simp
                  exact fun fuel2 rest2 hh hend2 =>
                    (ih (spineE (Exp.oper BOp.sub l r)).1 (by omega)).2.1
                      heok fuel2 rest2 hh hend2
              | mul => exact fun fuel2 rest2 hh hend2 => hQ trivial fuel2 rest2 hh hend2
              | div => exact fun fuel2 rest2 hh hend2 => hQ trivial fuel2 rest2 hh hend2
          | lit v => exact fun fuel2 rest2 hh hend2 => hQ trivial fuel2 rest2 hh hend2
          | ref x => exact fun fuel2 rest2 hh hend2 => hQ trivial fuel2 rest2 hh hend2
          | roll d2 s2 m2 => exact fun fuel2 rest2 hh hend2 => hQ trivial fuel2 rest2 hh hend2
        have hterm := htermspec f (chainE (spineE e).2 ++ rest) (by omega)
          (termEnd_chainE _ rest (fun p hp => (hemem p hp).1) hend)
        rw [hterm, bind_ok_perr]
        have hloop := exprLoop_chain (spineE e).2
          (fun p hp => Hterm p.2 (by have := (hemem p hp).2; omega))
          (fun p hp => (hemem p hp).1)
          (spineE e).1 f rest (by omega) hend
        exact hloop.trans (by rw [he2])
      have hP : ∀ fuel rest, 4 * (fToks e).length ≤ fuel →
          parseF fuel .factor (fToks e ++ rest) = .ok (e, rest) := by
        intro fuel rest hf
        cases e with
        | lit v =>
            obtain ⟨f, rfl⟩ : ∃ f, fuel = f + 1 := ⟨fuel - 1, by
              simp [fToks, toks] at hf
              omega⟩
            exact parseF_factor_lit f v rest
        | ref x =>
            obtain ⟨f, rfl⟩ : ∃ f, fuel = f + 1 := ⟨fuel - 1, by
              simp [fToks, toks] at hf
              omega⟩
            exact parseF_factor_ref f x rest
        | roll d2 s2 m2 =>
            obtain ⟨f, rfl⟩ : ∃ f, fuel = f + 1 := ⟨fuel - 1, by
              simp [fToks, toks] at hf
              omega⟩
            exact parseF_factor_roll f d2 s2 m2 rest
        | oper o l r =>
            have hlen : (fToks (.oper o l r)).length = (toks (.oper o l r)).length + 2 := by
              show (.punct .lparen :: (toks (.oper o l r) ++ [.punct .rparen]) : List Tok).length = _
              simp
            rw [hlen] at hf
            obtain ⟨f, rfl⟩ : ∃ f, fuel = f + 1 := ⟨fuel - 1, by omega⟩
            show parseF (f + 1) .factor
              (.punct .lparen :: ((toks (.oper o l r) ++ [.punct .rparen]) ++ rest)) = _
            rw [parseF_factor_lparen, List.append_assoc, List.singleton_append]
            have hexpr := hR f (.punct .rparen :: rest) (by omega) trivial
            rw [hexpr, bind_ok_perr]
      exact ⟨hP, hQ, hR⟩

/-- Parsing the token stream of an expression recovers the expression. -/
theorem parseToks_toks (e : Exp) : parseToks (toks e) = .ok e := by
  obtain ⟨_, _, hR⟩ := parseF_toks (sz e) e le_rfl
  have h := hR (4 * (toks e).length + 8) [] (by omega) trivial
  rw [List.append_nil] at h
  show (do
    let (e2, rest) ← parseF (4 * (toks e).length + 8) .expr (toks e)
    match rest with
    | [] => Except.ok e2
    | _ :: _ => Except.error PErr.trailingTok) = Except.ok e
  rw [h, bind_ok_perr]

/-- Full round trip: parsing the printed form of a well-formed expression
recovers the expression itself. -/
theorem parse_toStr (e : Exp) (hwf : WF e) : parse (toStr e) = .ok e := by
  show (do
    let ts ← tokenize (trim (toStr e))
    parseToks ts) = Except.ok e
  rw [tokenize_toStr e hwf, bind_ok_perr]
  exact parseToks_toks e

/-- C4: round-trip printing.  For a well-formed expression `e` (printable
literal values, valid reference names) the canonically-printed text
`toStr e` parses back to `e` itself, so printing the parse result
reproduces the text exactly (`toStr` emits single spaces around operators
and no other whitespace); and the printer parenthesizes a left child
exactly when it is an operation of strictly lower precedence, a right
child exactly when it is an operation of lower or equal precedence. -/
theorem C4_roundtrip (e : Exp) (hwf : WF e) :
    parse (toStr e) = .ok e ∧
    (parse (toStr e)).map toStr = .ok (toStr e) ∧
    (∀ o l r, toStr (.oper o l r) = strL o l ++ ' ' :: opChar o :: ' ' :: strR o r) ∧
    (∀ o lo ll lr, strL o (.oper lo ll lr) =
        if prec lo < prec o then '(' :: (toStr (.oper lo ll lr) ++ [')'])
        else toStr (.oper lo ll lr)) ∧
    (∀ o ro rl rr, strR o (.oper ro rl rr) =
        if prec ro ≤ prec o then '(' :: (toStr (.oper ro rl rr) ++ [')'])
        else toStr (.oper ro rl rr)) := by
  refine ⟨parse_toStr e hwf, ?_, toStr_oper, fun _ _ _ _ => rfl, fun _ _ _ _ => rfl⟩
  rw [parse_toStr e hwf]
  rfl

/-- C4 witness: the concrete expression `(a + 1) * 2`, whose left child is
parenthesized by the printer, parses back to itself. -/
theorem C4_witness :
    WF (Exp.oper .mul (.oper .add (.ref ['a']) (.lit 1)) (.lit 2)) ∧
    parse (toStr (Exp.oper .mul (.oper .add (.ref ['a']) (.lit 1)) (.lit 2))) =
      .ok (Exp.oper .mul (.oper .add (.ref ['a']) (.lit 1)) (.lit 2)) := by
  have hwf : WF (Exp.oper .mul (.oper .add (.ref ['a']) (.lit 1)) (.lit 2)) := by
    refine ⟨⟨⟨?_, ?_⟩, ?_⟩, ?_⟩
    · decide
    · intro x hx
      simp at hx
    · show Printable 1
      with_unfolding_all decide
    · show Printable 2
      with_unfolding_all decide
  exact ⟨hwf, (C4_roundtrip _ hwf).1⟩

/-! ## The specification-side language for roll-free arithmetic (claim C2) -/

/-- Abstract roll-free arithmetic expressions, as described by the spec:
numbers, variables, and binary operations. -/
inductive SpecExp where
  | num (v : ℚ)
  | var (x : List Char)
  | bin (o : BOp) (l r : SpecExp)

/-- Direct arithmetic evaluation with substitution from the context: the
standard field operations on ℚ, with a variable looked up in the context
(the claim assumes every variable is present). -/
def specEval (c : Ctx) : SpecExp → ℚ
  | .num v => v
  | .var x => (ctxFind c x).getD 0
  | .bin o l r =>
      match o with
      | .add => specEval c l + specEval c r
      | .sub => specEval c l - specEval c r
      | .mul => specEval c l * specEval c r
      | .div => specEval c l / specEval c r

/-- The variables of a specification expression. -/
def specVars : SpecExp → List (List Char)
  | .num _ => []
  | .var x => [x]
  | .bin _ l r => specVars l ++ specVars r

/-- Printing a specification expression with the standard conventions:
`*`, `/` bind tighter than `+`, `-`; chains read left-associatively; a
subexpression is parenthesized when its operator binds too loosely for its
position (strictly looser on the left, loosely-or-equally on the right,
which is exactly where left-associative reading would change the tree). -/
def specPrint : SpecExp → List Char
  | .num v => numToString v
  | .var x => x
  | .bin o l r =>
      (match l with
       | .bin lo _ _ => if prec lo < prec o then '(' :: (specPrint l ++ [')']) else specPrint l
       | _ => specPrint l) ++
      ' ' :: opChar o :: ' ' ::
      (match r with
       | .bin ro _ _ => if prec ro ≤ prec o then '(' :: (specPrint r ++ [')']) else specPrint r
       | _ => specPrint r)

/-- The abstract syntax tree denoted by a specification expression. -/
def specToExp : SpecExp → Exp
  | .num v => .lit v
  | .var x => .ref x
  | .bin o l r => .oper o (specToExp l) (specToExp r)

/-- Well-formedness of a specification expression: printable numbers and
valid variable names. -/
def specWF : SpecExp → Prop
  | .num v => Printable v
  | .var x => validName x
  | .bin _ l r => specWF l ∧ specWF r

/-- A well-formed specification expression maps to a well-formed AST. -/
theorem specWF_WF (s : SpecExp) (h : specWF s) : WF (specToExp s) := by
  induction s with
  | num v => exact h
  | var x => exact h
  | bin o l r ihl ihr => exact ⟨ihl h.1, ihr h.2⟩

/-- The characters of a left child in the standard-conventions printer. -/
def spL (o : BOp) (l : SpecExp) : List Char :=
  match l with
  | .bin lo _ _ => if prec lo < prec o then '(' :: (specPrint l ++ [')']) else specPrint l
  | _ => specPrint l

/-- The characters of a right child in the standard-conventions printer. -/
def spR (o : BOp) (r : SpecExp) : List Char :=
  match r with
  | .bin ro _ _ => if prec ro ≤ prec o then '(' :: (specPrint r ++ [')']) else specPrint r
  | _ => specPrint r

/-- The `bin` equation of `specPrint` through the named child helpers. -/
theorem specPrint_bin (o : BOp) (l r : SpecExp) :
    specPrint (.bin o l r) = spL o l ++ ' ' :: opChar o :: ' ' :: spR o r := by
  cases l <;> cases r <;> rfl

/-- The standard-conventions printer agrees with the engine's printer on
the corresponding AST. -/
theorem specPrint_toStr (s : SpecExp) : specPrint s = toStr (specToExp s) := by
  induction s with
  | num v => rfl
  | var x => rfl
  | bin o l r ihl ihr =>
      have hL : spL o l = strL o (specToExp l) := by
        cases l with
        | bin lo a b =>
            show (if prec lo < prec o then '(' :: (specPrint (.bin lo a b) ++ [')'])
              else specPrint (.bin lo a b)) = _
            rw [ihl]
            rfl
        | num w => exact ihl
        | var y => exact ihl
      have hR : spR o r = strR o (specToExp r) := by
        cases r with
        | bin ro a b =>
            show (if prec ro ≤ prec o then '(' :: (specPrint (.bin ro a b) ++ [')'])
              else specPrint (.bin ro a b)) = _
            rw [ihr]
            rfl
        | num w => exact ihr
        | var y => exact ihr
      rw [specPrint_bin, hL, hR,
        show specToExp (.bin o l r) = .oper o (specToExp l) (specToExp r) from rfl,
        toStr_oper]

/-- Evaluating the AST of a roll-free specification expression yields the
direct arithmetic value, at any cursor position. -/
theorem calc_specToExp (s : SpecExp) (c : Ctx) (src : Nat → ℚ) :
    ∀ n, (calcE (specToExp s) c src n).1 = specEval c s := by
  induction s with
  | num v => intro n; rfl
  | var x => intro n; rfl
  | bin o l r ihl ihr =>
      intro n
      show doOp o (calcE (specToExp l) c src n).1
        (calcE (specToExp r) c src (calcE (specToExp l) c src n).2.1).1 = _
      rw [ihl, ihr]
      cases o <;> rfl

/-- C2: for every context and every roll-free expression text written with
the standard conventions (precedence of `*`, `/` over `+`, `-`,
left-associativity, parenthesized grouping) whose variables all appear in
the context, parsing and then evaluating with `calc` gives exactly the
direct arithmetic evaluation with substitution.  Texts are quantified as
the standard printings of abstract roll-free expressions (`specPrint`),
with printable numbers and valid variable names. -/
theorem C2_parse_calc (s : SpecExp) (c : Ctx) (src : Nat → ℚ) (n : Nat)
    (hwf : specWF s)
    (hvars : ∀ x ∈ specVars s, ∃ v, ctxFind c x = some v) :
    (parse (specPrint s)).map (fun e => (calcE e c src n).1) = .ok (specEval c s) := by
  rw [specPrint_toStr s, parse_toStr _ (specWF_WF s hwf)]
  show Except.ok ((calcE (specToExp s) c src n).1) = _
  rw [calc_specToExp s c src n]

/-- C2 witness: parsing and evaluating `a + 2 * b` in the context
`a = 3, b = 5` yields `13`. -/
theorem C2_witness :
    specWF (SpecExp.bin .add (.var ['a']) (.bin .mul (.num 2) (.var ['b']))) ∧
    (∀ x ∈ specVars (SpecExp.bin .add (.var ['a']) (.bin .mul (.num 2) (.var ['b']))),
      ∃ v, ctxFind [(['a'], (3 : ℚ)), (['b'], 5)] x = some v) ∧
    (parse (specPrint (SpecExp.bin .add (.var ['a']) (.bin .mul (.num 2) (.var ['b']))))).map
      (fun e => (calcE e [(['a'], (3 : ℚ)), (['b'], 5)] (fun _ => 0) 0).1) =
      .ok (13 : ℚ) := by
  have hwf : specWF (SpecExp.bin .add (.var ['a']) (.bin .mul (.num 2) (.var ['b']))) := by
    refine ⟨⟨?_, ?_⟩, ?_, ⟨?_, ?_⟩⟩
    · decide
    · intro x hx
      simp at hx
    · show Printable 2
      with_unfolding_all decide
    · decide
    · intro x hx
      simp at hx
  have hv : ∀ x ∈ specVars (SpecExp.bin .add (.var ['a']) (.bin .mul (.num 2) (.var ['b']))),
      ∃ v, ctxFind [(['a'], (3 : ℚ)), (['b'], 5)] x = some v := by
    intro x hx
    simp [specVars] at hx
    rcases hx with rfl | rfl
    · exact ⟨3, rfl⟩
    · exact ⟨5, by with_unfolding_all rfl⟩
  refine ⟨hwf, hv, ?_⟩
  rw [C2_parse_calc (SpecExp.bin .add (.var ['a']) (.bin .mul (.num 2) (.var ['b'])))
    [(['a'], (3 : ℚ)), (['b'], 5)] (fun _ => 0) 0 hwf hv]
  with_unfolding_all decide

end RollEx
